import Mathlib

/-!
# Verification of the xcli table-rendering, input-classification, WOEID and
# post-text subsystems

Shallow embedding of the algorithmic core of the `xcli` command-line client
(`src/internal/util.ts`, `src/cli.ts`, the WOEID resolver and the
human-rendering module), together with proofs of the behavioural claims made
about it.

Modelling conventions:
* JavaScript strings are modelled as Lean `String`/`List Char`; all inputs of
  interest are BMP text, where JS UTF-16 lengths coincide with code-point
  counts.
* JS `number` values that the code only ever uses as integers (widths,
  limits, counters, scores) are modelled as `Int` (or `Nat` where the source
  value is a length).
* String scanning primitives (`slice`, `split`, `trim`, regexes) are
  re-implemented on `List Char` with JS semantics so that all proofs are
  list inductions.
-/

namespace XCli

/-! ## JS string primitives -/

/-- JS `String.prototype.toLowerCase`, restricted to ASCII `A`–`Z` and the
Latin-1 uppercase range `À`–`Þ` (except `×`); all other characters are left
unchanged.  This covers every character the claims exercise. -/
def jsCharLower (c : Char) : Char :=
  if 'A' ≤ c ∧ c ≤ 'Z' then Char.ofNat (c.toNat + 32)
  else if 0xC0 ≤ c.toNat ∧ c.toNat ≤ 0xDE ∧ c.toNat ≠ 0xD7 then Char.ofNat (c.toNat + 32)
  else c

def jsToLower (s : String) : String := ⟨s.data.map jsCharLower⟩

/-- JS `\s` (whitespace) class, as used by `trim`, `split(/\s+/)` etc. -/
def isWs (c : Char) : Bool := c.isWhitespace

/-- JS `String.prototype.trim` on character lists. -/
def jsTrimL (l : List Char) : List Char :=
  ((l.dropWhile isWs).reverse.dropWhile isWs).reverse

def jsTrim (s : String) : String := ⟨jsTrimL s.data⟩

/-- JS `s.split(sep)` for a single-character separator. -/
def jsSplitChar (sep : Char) : List Char → List (List Char)
  | [] => [[]]
  | c :: rest =>
    if c = sep then [] :: jsSplitChar sep rest
    else
      match jsSplitChar sep rest with
      | s :: ss => (c :: s) :: ss
      | [] => [[c]]

/-- Fuelled worker for `wsWords`; every step consumes at least one
character, so the `0` case is unreachable from `wsWords`. -/
def wsWordsGo : Nat → List Char → List String
  | _, [] => []
  | 0, l => [String.mk l]
  | fuel + 1, c :: rest =>
    if isWs c then wsWordsGo fuel rest
    else
      String.mk (c :: rest.takeWhile (fun x => !isWs x)) ::
        wsWordsGo fuel (rest.dropWhile (fun x => !isWs x))

/-- The maximal runs of non-whitespace characters of a character list (the
result of JS `trimmed.split(/\s+/)` on an already-trimmed string). -/
def wsWords (l : List Char) : List String := wsWordsGo l.length l

/-- `needle.isPrefixOf hay` for strings (JS `startsWith`). -/
def strStartsWith (hay needle : String) : Bool :=
  needle.data.isPrefixOf hay.data

/-- JS `hay.includes(needle)` (substring containment). -/
def containsL (needle : List Char) : List Char → Bool
  | [] => needle.isEmpty
  | c :: rest => needle.isPrefixOf (c :: rest) || containsL needle rest

def strContains (hay needle : String) : Bool := containsL needle.data hay.data

/-- JS `s.slice(0, stop)` with JS negative-index semantics. -/
def jsSlice0 (s : String) (stop : Int) : String :=
  let n : Int := s.length
  let e : Int := if stop < 0 then max 0 (n + stop) else min stop n
  ⟨s.data.take e.toNat⟩

/-! ## `truncate` (src/internal/util.ts) -/

/-- `truncate` from `src/internal/util.ts`: return the input if it fits,
degenerate slice for `max ≤ 1`, otherwise cut to `max - 1` characters and
append a literal `"..."`. -/
def truncate (input : String) (max : Int) : String :=
  if (input.length : Int) ≤ max then input
  else if max ≤ 1 then jsSlice0 input max
  else jsSlice0 input (max - 1) ++ "..."

/-! ## `stripAnsi` and padding (src/internal/util.ts) -/

/-- After an ESC character: recognise `[` `[0-9;]*` `m` and return the
remaining characters, mirroring one match of the regex `\u001B\[[0-9;]*m`. -/
def ansiBody : List Char → Option (List Char)
  | '[' :: rest =>
    match rest.dropWhile (fun c => c.isDigit || c = ';') with
    | 'm' :: tail => some tail
    | _ => none
  | _ => none

/-- Fuelled worker for `stripAnsi` (regex replace of `\u001B\[[0-9;]*m` by
the empty string, leftmost-match, non-overlapping).  Every step consumes at
least one character (`ansiBody` returns a proper suffix), so the `0` case is
unreachable from `stripAnsiL`. -/
def stripAnsiGo : Nat → List Char → List Char
  | _, [] => []
  | 0, l => l
  | fuel + 1, c :: rest =>
    if c = '\x1B' then
      match ansiBody rest with
      | some tail => stripAnsiGo fuel tail
      | none => c :: stripAnsiGo fuel rest
    else c :: stripAnsiGo fuel rest

def stripAnsiL (l : List Char) : List Char := stripAnsiGo l.length l

/-- `stripAnsi` from `src/internal/util.ts`. -/
def stripAnsi (s : String) : String := ⟨stripAnsiL s.data⟩

/-- `padRight` from `src/internal/util.ts`: pad with spaces up to `width`,
measuring the ANSI-stripped length. -/
def padRight (input : String) (width : Int) : String :=
  let len : Int := (stripAnsi input).length
  if len ≥ width then input
  else input ++ String.mk (List.replicate (width - len).toNat ' ')

/-! ## Text wrapping (src/internal/util.ts) -/

/-- The hard-split loop of `wrapPlainText`
(`for (let i = 0; i < word.length; i += width) chunks.push(word.slice(i, i + width))`),
producing chunks of `w + 1` characters (last one possibly shorter). -/
def hardChunksGo (w : Nat) : Nat → List Char → List String
  | _, [] => []
  | 0, l => [String.mk l]
  | fuel + 1, c :: rest => String.mk (c :: rest.take w) :: hardChunksGo w fuel (rest.drop w)

def hardChunks (w : Nat) (l : List Char) : List String := hardChunksGo w l.length l

/-- The inner word loop of `wrapPlainText`: greedy whitespace-delimited fill
of lines of at most `width` characters, hard-splitting words longer than
`width`.  Only reached with `width ≥ 2`. -/
def wrapWords (width : Int) : List String → String → List String
  | [], line => if line.length > 0 then [line] else []
  | word :: rest, line =>
    if (word.length : Int) > width then
      (if line.length > 0 then [line] else []) ++
        hardChunks (width.toNat - 1) word.data ++ wrapWords width rest ""
    else if line.length = 0 then wrapWords width rest word
    else if (line.length : Int) + 1 + word.length ≤ width then
      wrapWords width rest (line ++ " " ++ word)
    else line :: wrapWords width rest word

/-- Wrapping of one newline-delimited segment of `wrapPlainText`'s input:
blank (after trimming) segments contribute one empty line, other segments go
through the greedy word loop. -/
def wrapSegment (width : Int) (seg : List Char) : List String :=
  let t := jsTrimL seg
  if t.length = 0 then [""] else wrapWords width (wsWords t) ""

/-- `wrapPlainText` from `src/internal/util.ts`.  For `width ≤ 1` the input is
split into individual characters (empty input giving a single empty line);
otherwise each newline-delimited segment is trimmed and word-wrapped, and an
empty chunk list degrades to a single empty line. -/
def wrapPlainText (input : String) (width : Int) : List String :=
  if width ≤ 1 then
    if input.length = 0 then [""] else input.data.map (fun c => String.mk [c])
  else
    let chunks := (jsSplitChar '\n' input.data).flatMap (wrapSegment width)
    if chunks.length > 0 then chunks else [""]

/-- `wrapText` from `src/internal/util.ts`: inputs whose ANSI-stripped length
fits in `width` are returned unchanged (styling intact); longer inputs are
word-wrapped on their ANSI-stripped text. -/
def wrapText (input : String) (width : Int) : List String :=
  let plain := stripAnsi input
  if (plain.length : Int) ≤ width then [input]
  else wrapPlainText plain width

/-! ## Width fitting (src/internal/util.ts, `shrinkWidthsToFit`) -/

/-- `total()` inside `shrinkWidthsToFit`: sum of the column widths plus two
separator spaces per gap. -/
def totalWidth (out : List Int) : Int :=
  out.sum + 2 * max 0 ((out.length : Int) - 1)

/-- The candidate-selection loop of `shrinkWidthsToFit`: starting from
`candidate = -1` (`none`) and `bestSlack = 0`, scan the `(width, minWidth)`
pairs and keep the last index whose slack is `≥` the best so far. -/
def pickLoop : List (Int × Int) → Nat → Option Nat → Int → Option Nat × Int
  | [], _, cand, best => (cand, best)
  | (w, m) :: rest, i, cand, best =>
    if w - m ≥ best then pickLoop rest (i + 1) (some i) (w - m)
    else pickLoop rest (i + 1) cand best

/-- The `(width, minWidth)` pairs scanned by the loop (the loop body reads
`out[i]` and `minWidths[i] ?? 1` for each `i < out.length`). -/
def slackPairs (out minW : List Int) : List (Int × Int) :=
  (List.range out.length).map (fun k => (out.getD k 0, minW.getD k 1))

/-- The column `shrinkWidthsToFit` decrements in one iteration: `some i` iff
the loop ends with `candidate ≠ -1` and `bestSlack > 0` (otherwise the
`while` loop breaks). -/
def pickCandidate (out minW : List Int) : Option Nat :=
  match pickLoop (slackPairs out minW) 0 none 0 with
  | (some i, best) => if best ≤ 0 then none else some i
  | (none, _) => none

/-- Fuelled version of the `while (total() > maxWidth)` loop of
`shrinkWidthsToFit`.  Each iteration removes one unit of width from the
chosen column, so `(totalWidth widths - maxWidth).toNat` units of fuel are
exactly enough (`shrinkWidthsToFit_eq` below shows the fuel never runs out). -/
def shrinkGo : Nat → List Int → List Int → Int → List Int
  | 0, out, _, _ => out
  | fuel + 1, out, minW, maxW =>
    if totalWidth out > maxW then
      match pickCandidate out minW with
      | some i => shrinkGo fuel (out.set i (out.getD i 0 - 1)) minW maxW
      | none => out
    else out

/-- `shrinkWidthsToFit` from `src/internal/util.ts`. -/
def shrinkWidthsToFit (widths minWidths : List Int) (maxWidth : Int) : List Int :=
  shrinkGo (totalWidth widths - maxWidth).toNat widths minWidths maxWidth

/-! ## `renderTable` (src/internal/util.ts) -/

/-- The options bag of `renderTable`.  `minWidths = []` models an absent
array (`opts?.minWidths?.[i]` is `undefined` in either case). -/
structure TableOpts where
  maxWidth : Option Int := none
  minColWidth : Option Int := none
  minWidths : List Int := []

/-- The natural column widths of `renderTable`: per column the max of the
ANSI-stripped header length and every ANSI-stripped cell length. -/
def natWidths (headers : List String) (rows : List (List String)) : List Int :=
  rows.foldl
    (fun ws row => ws.mapIdx (fun i w => max w ((stripAnsi (row.getD i "")).length : Int)))
    (headers.map (fun h => ((stripAnsi h).length : Int)))

/-- The per-column minimum widths of `renderTable`:
`min(widths[i], max(headerWidth, bounded))` where `bounded` is the clamped
explicit hint or the `minColWidth ?? 4` default. -/
def minWidthsOf (headers : List String) (rows : List (List String))
    (opts : TableOpts) : List Int :=
  (natWidths headers rows).mapIdx (fun i w =>
    let headerWidth : Int := (stripAnsi (headers.getD i "")).length
    let bounded : Int :=
      match opts.minWidths.get? i with
      | some e => max 1 e
      | none => opts.minColWidth.getD 4
    min w (max headerWidth bounded))

/-- The fitted column widths of `renderTable`: shrink to the budget
`max(20, maxWidth)` when a maximum width is supplied, else the natural
widths.  (`Math.trunc` is the identity on the `Int` model.) -/
def fittedWidthsOf (headers : List String) (rows : List (List String))
    (opts : TableOpts) : List Int :=
  match opts.maxWidth with
  | some m => shrinkWidthsToFit (natWidths headers rows) (minWidthsOf headers rows opts) (max 20 m)
  | none => natWidths headers rows

/-- The wrapped cells of one row (`wrapText(row[i] ?? "", fittedWidths[i]!)`). -/
def wrappedCellsOf (headers : List String) (fitted : List Int)
    (row : List String) : List (List String) :=
  headers.mapIdx (fun i _ => wrapText (row.getD i "") (fitted.getD i 0))

/-- The rendered height of a row:
`wrappedCells.reduce((max, lines) => Math.max(max, lines.length), 1)`. -/
def rowHeightOf (wrapped : List (List String)) : Nat :=
  wrapped.foldl (fun mx ls => max mx ls.length) 1

/-- The emitted lines of one row of `renderTable`: for every line index up to
the row height, the padded cell lines joined by two spaces. -/
def renderRowLines (headers : List String) (fitted : List Int)
    (row : List String) : List String :=
  let wrapped := wrappedCellsOf headers fitted row
  (List.range (rowHeightOf wrapped)).map (fun lineIdx =>
    String.intercalate "  "
      (headers.mapIdx (fun i _ => padRight ((wrapped.getD i []).getD lineIdx "") (fitted.getD i 0))))

/-- `renderTable` from `src/internal/util.ts`. -/
def renderTable (headers : List String) (rows : List (List String))
    (opts : TableOpts) : List String :=
  if headers.isEmpty then []
  else
    let fitted := fittedWidthsOf headers rows opts
    let headerLine := String.intercalate "  "
      (headers.mapIdx (fun i h => padRight h (fitted.getD i 0)))
    let separator := String.intercalate "  "
      (fitted.map (fun w => String.mk (List.replicate w.toNat '-')))
    headerLine :: separator :: rows.flatMap (renderRowLines headers fitted)

/-! ## URL parsing and input classifiers (src/internal/util.ts) -/

def isProbablyUrl (s : String) : Bool :=
  "http://".data.isPrefixOf s.data || "https://".data.isPrefixOf s.data

def isNumericId (s : String) : Bool :=
  !s.data.isEmpty && s.data.all Char.isDigit

/-- One character of the `^[A-Za-z0-9_]{1,50}$` username syntax. -/
def isUsernameChar (c : Char) : Bool := c.isAlphanum || c = '_'

def isLikelyUsername (s : String) : Bool :=
  decide (1 ≤ s.data.length) && decide (s.data.length ≤ 50) && s.data.all isUsernameChar

def normalizeUsername (s : String) : String :=
  match s.data with
  | '@' :: rest => ⟨rest⟩
  | _ => s

/-- The observable parts of `new URL(...)` that the classifiers read. -/
structure UrlParts where
  hostname : String
  pathname : String
deriving DecidableEq, Repr

/-- `new URL(input)`, modelled for plain `http(s)://host[:port]/path` URLs
(the only scheme family the classifiers accept): authority up to the first
`/?#`, userinfo up to the last `@` dropped, port dropped, hostname
lowercased, query/fragment dropped from the pathname, empty path becoming
`/`.  Parsing fails on an empty authority or hostname, as in WHATWG. -/
def parseUrlM (s : String) : Option UrlParts :=
  let afterScheme : Option (List Char) :=
    if "https://".data.isPrefixOf s.data then some (s.data.drop 8)
    else if "http://".data.isPrefixOf s.data then some (s.data.drop 7)
    else none
  match afterScheme with
  | none => none
  | some rest =>
    let authority := rest.takeWhile (fun c => c != '/' && c != '?' && c != '#')
    let afterAuth := rest.drop authority.length
    if authority.isEmpty then none
    else
      let hostport := authority.foldl (fun acc c => if c = '@' then [] else acc ++ [c]) []
      let hostname := hostport.takeWhile (fun c => c != ':')
      if hostname.isEmpty then none
      else
        let path := afterAuth.takeWhile (fun c => c != '?' && c != '#')
        some ⟨jsToLower ⟨hostname⟩, if path.isEmpty then "/" else ⟨path⟩⟩

/-- `normalizeHost` from `src/internal/util.ts`. -/
def normalizeHost (hostname : String) : String :=
  let h := jsToLower hostname
  if "www.".data.isPrefixOf h.data then ⟨h.data.drop 4⟩ else h

def hexDigitVal (c : Char) : Option Nat :=
  if c.isDigit then some (c.toNat - 48)
  else if 'a' ≤ c ∧ c ≤ 'f' then some (c.toNat - 87)
  else if 'A' ≤ c ∧ c ≤ 'F' then some (c.toNat - 55)
  else none

/-- JS `decodeURIComponent`, modelled for ASCII percent-escapes (`%xy` with
hex digits and value below `0x80`); other `%` sequences are left in place.
The URL segments the classifiers accept contain no escapes at all, where
this is the identity. -/
def decodeURIComponentL : List Char → List Char
  | [] => []
  | c :: rest =>
    if c = '%' then
      match rest with
      | a :: b :: rest2 =>
        (match hexDigitVal a, hexDigitVal b with
         | some x, some y =>
           if 16 * x + y < 128 then Char.ofNat (16 * x + y) :: decodeURIComponentL rest2
           else c :: decodeURIComponentL (a :: b :: rest2)
         | _, _ => c :: decodeURIComponentL (a :: b :: rest2))
      | [] => c :: decodeURIComponentL []
      | [a] => c :: decodeURIComponentL [a]
    else c :: decodeURIComponentL rest

def decodeURIComponent (s : String) : String := ⟨decodeURIComponentL s.data⟩

/-- The pattern `/status/` of the regex `/\/status\/(\d+)/`. -/
def statusPat : List Char := "/status/".data

/-- Whether the regex `/\/status\/(\d+)/` matches at the start of `l`. -/
def statusCond (l : List Char) : Bool :=
  statusPat.isPrefixOf l && ((l.drop 8).headD 'x').isDigit

/-- First match of `/\/status\/(\d+)/`: scan left to right for `/status/`
followed by at least one digit and capture the maximal digit run. -/
def findStatusId : List Char → Option String
  | [] => none
  | c :: rest =>
    if statusCond (c :: rest) then some ⟨((c :: rest).drop 8).takeWhile Char.isDigit⟩
    else findStatusId rest

/-- `extractPostId` from `src/internal/util.ts`.  The second regex
`/\/i\/web\/status\/(\d+)/` in the source is only consulted when the first
fails, but any of its matches contains a `/status/<digit>` match of the
first pattern, so it can never fire; the first pattern alone is faithful. -/
def extractPostId (url : String) : Option String := findStatusId url.data

/-- `pathname.split("/").map(trim).filter(nonempty)` shared by the two
path-segment extractors. -/
def pathSegments (pathname : String) : List String :=
  (((jsSplitChar '/' pathname.data).map jsTrimL).filter (fun l => !l.isEmpty)).map
    (fun l => String.mk l)

/-- `extractUserFromStatusPath` from `src/internal/util.ts`. -/
def extractUserFromStatusPath (pathname : String) : Option String :=
  let segments := pathSegments pathname
  if segments.length < 3 then none
  else if segments.getD 1 "" ≠ "status" then none
  else
    let username := normalizeUsername (decodeURIComponent (segments.getD 0 ""))
    if isLikelyUsername username then some username else none

def RESERVED_USER_PATHS : List String :=
  ["about", "compose", "explore", "hashtag", "home", "i", "intent", "login",
   "messages", "notifications", "privacy", "search", "settings", "share",
   "signup", "tos"]

/-- `extractUserFromProfilePath` from `src/internal/util.ts`. -/
def extractUserFromProfilePath (pathname : String) : Option String :=
  let segments := pathSegments pathname
  if segments.isEmpty then none
  else if segments.getD 0 "" = "i" ∧ segments.getD 1 "" = "user" ∧
      isNumericId (segments.getD 2 "") then
    some ("id:" ++ segments.getD 2 "")
  else
    let first := normalizeUsername (decodeURIComponent (segments.getD 0 ""))
    if RESERVED_USER_PATHS.contains (jsToLower first) then none
    else if isLikelyUsername first then some ("username:" ++ first)
    else none

inductive ParsedUserInput where
  | id (value source : String)
  | username (value source : String)
  | invalid (source reason : String)
deriving DecidableEq, Repr

def ParsedUserInput.source : ParsedUserInput → String
  | .id _ s => s
  | .username _ s => s
  | .invalid s _ => s

def ParsedUserInput.isInvalid : ParsedUserInput → Bool
  | .invalid _ _ => true
  | _ => false

inductive ParsedPostInput where
  | id (value source : String)
  | invalid (source reason : String)
deriving DecidableEq, Repr

/-- `parseUserInput` from `src/internal/util.ts`. -/
def parseUserInput (source : String) : ParsedUserInput :=
  if isProbablyUrl source then
    match parseUrlM source with
    | none => .invalid source "Invalid URL."
    | some parsed =>
      let host := normalizeHost parsed.hostname
      if host ≠ "x.com" ∧ host ≠ "twitter.com" then
        .invalid source "URL must be on x.com or twitter.com."
      else
        match extractUserFromStatusPath parsed.pathname with
        | some statusUser => .username statusUser source
        | none =>
          match extractUserFromProfilePath parsed.pathname with
          | none => .invalid source "Could not determine a user from URL."
          | some profile =>
            if "id:".data.isPrefixOf profile.data then .id ⟨profile.data.drop 3⟩ source
            else .username ⟨profile.data.drop 9⟩ source
  else if isNumericId source then .id source source
  else
    let username := normalizeUsername source
    if isLikelyUsername username then .username username source
    else .invalid source "Expected an ID, username, or x.com/twitter.com URL."

/-- `parsePostInput` from `src/internal/util.ts`. -/
def parsePostInput (source : String) : ParsedPostInput :=
  if isProbablyUrl source then
    match parseUrlM source with
    | none => .invalid source "Invalid URL."
    | some parsed =>
      let host := normalizeHost parsed.hostname
      if host ≠ "x.com" ∧ host ≠ "twitter.com" then
        .invalid source "URL must be on x.com or twitter.com."
      else
        match extractPostId source with
        | none => .invalid source "Could not determine a Post ID from URL."
        | some id => .id id source
  else if isNumericId source then .id source source
  else .invalid source "Expected a numeric Post ID or x.com/twitter.com status URL."

/-! ## WOEID resolver (woeid module) -/

/-- NFKD decomposition, restricted to the precomposed Latin-1 letters; every
other character decomposes to itself.  This is the only part of Unicode
normalisation that survives `normalizeText`'s subsequent diacritic stripping
and non-alphanumeric collapsing for the inputs exercised here. -/
def nfkdChar (c : Char) : List Char :=
  let mark : Nat :=
    match c with
    | 'À' | 'à' | 'È' | 'è' | 'Ì' | 'ì' | 'Ò' | 'ò' | 'Ù' | 'ù' => 0x300
    | 'Á' | 'á' | 'É' | 'é' | 'Í' | 'í' | 'Ó' | 'ó' | 'Ú' | 'ú' | 'Ý' | 'ý' => 0x301
    | 'Â' | 'â' | 'Ê' | 'ê' | 'Î' | 'î' | 'Ô' | 'ô' | 'Û' | 'û' => 0x302
    | 'Ã' | 'ã' | 'Ñ' | 'ñ' | 'Õ' | 'õ' => 0x303
    | 'Ä' | 'ä' | 'Ë' | 'ë' | 'Ï' | 'ï' | 'Ö' | 'ö' | 'Ü' | 'ü' | 'ÿ' => 0x308
    | 'Å' | 'å' => 0x30A
    | 'Ç' | 'ç' => 0x327
    | _ => 0
  let base : Char :=
    match c with
    | 'À' | 'Á' | 'Â' | 'Ã' | 'Ä' | 'Å' => 'A'
    | 'à' | 'á' | 'â' | 'ã' | 'ä' | 'å' => 'a'
    | 'Ç' => 'C'
    | 'ç' => 'c'
    | 'È' | 'É' | 'Ê' | 'Ë' => 'E'
    | 'è' | 'é' | 'ê' | 'ë' => 'e'
    | 'Ì' | 'Í' | 'Î' | 'Ï' => 'I'
    | 'ì' | 'í' | 'î' | 'ï' => 'i'
    | 'Ñ' => 'N'
    | 'ñ' => 'n'
    | 'Ò' | 'Ó' | 'Ô' | 'Õ' | 'Ö' => 'O'
    | 'ò' | 'ó' | 'ô' | 'õ' | 'ö' => 'o'
    | 'Ù' | 'Ú' | 'Û' | 'Ü' => 'U'
    | 'ù' | 'ú' | 'û' | 'ü' => 'u'
    | 'Ý' | 'ý' => 'Y'
    | 'ÿ' => 'y'
    | _ => c
  if mark = 0 then [c] else [base, Char.ofNat mark]

def isLowerAlnum (c : Char) : Bool :=
  ('a' ≤ c && c ≤ 'z') || ('0' ≤ c && c ≤ '9')

/-- `.replace(/[^a-z0-9]+/g, " ")`: collapse each maximal run of characters
outside `[a-z0-9]` into a single space. -/
def collapseNonAlnumGo : Nat → List Char → List Char
  | _, [] => []
  | 0, l => l
  | fuel + 1, c :: rest =>
    if isLowerAlnum c then c :: collapseNonAlnumGo fuel rest
    else ' ' :: collapseNonAlnumGo fuel (rest.dropWhile (fun x => !isLowerAlnum x))

def collapseNonAlnum (l : List Char) : List Char := collapseNonAlnumGo l.length l

/-- `normalizeText` from the woeid module: NFKD-decompose, drop combining
marks U+0300–U+036F, lowercase, collapse non-alphanumeric runs to single
spaces, trim. -/
def normalizeText (s : String) : String :=
  let decomposed := s.data.flatMap nfkdChar
  let stripped := decomposed.filter (fun c => !(0x300 ≤ c.toNat && c.toNat ≤ 0x36F))
  let lowered := stripped.map jsCharLower
  ⟨jsTrimL (collapseNonAlnum lowered)⟩

structure WoeidRecord where
  placeName : String
  country : String
  woeid : Int
  placeType : String
  countryCode : Option String := none
deriving DecidableEq, Repr, Inhabited

/-- `scoreRecord` from the woeid module. -/
def scoreRecord (record : WoeidRecord) (queryNorm : String)
    (queryTokens : List String) : Int :=
  let placeNorm := normalizeText record.placeName
  let countryNorm := normalizeText record.country
  let combined := jsTrim (placeNorm ++ " " ++ countryNorm)
  let base : Int :=
    (if placeNorm = queryNorm then 200 else 0) +
    (if combined = queryNorm then 240 else 0) +
    (if strStartsWith placeNorm queryNorm then 120 else 0) +
    (if strStartsWith combined queryNorm then 100 else 0) +
    (if strContains placeNorm queryNorm then 80 else 0) +
    (if strContains combined queryNorm then 60 else 0)
  queryTokens.foldl
    (fun score token =>
      score + (if strContains placeNorm token then 24
               else if strContains countryNorm token then 12 else 0))
    base

structure ScoredRecord where
  record : WoeidRecord
  score : Int
deriving DecidableEq, Repr, Inhabited

/-- The sort comparator `(a, b) => b.score - a.score || a.placeName.localeCompare(b.placeName)`
as a `≤`-style boolean relation (`a` may stay before `b`).  `localeCompare`
is modelled by code-point order, with which it agrees on the names
exercised here. -/
def scoredLE (a b : ScoredRecord) : Bool :=
  if b.score < a.score then true
  else if a.score = b.score then decide (a.record.placeName ≤ b.record.placeName)
  else false

/-- Stable insertion: a newly arriving element goes after every element that
may stay before it, matching the stable order mandated for
`Array.prototype.sort`. -/
def stableInsert (le : ScoredRecord → ScoredRecord → Bool) (a : ScoredRecord) :
    List ScoredRecord → List ScoredRecord
  | [] => [a]
  | b :: l => if le b a then b :: stableInsert le a l else a :: b :: l

/-- Stable sort by the comparator: elements are inserted left to right, so
comparator-ties keep their input order, as JS `Array.prototype.sort`
guarantees (for a consistent comparator the stable sorted permutation is
unique, so any conforming implementation returns this list). -/
def stableSort (le : ScoredRecord → ScoredRecord → Bool)
    (l : List ScoredRecord) : List ScoredRecord :=
  l.foldl (fun acc x => stableInsert le x acc) []

/-- `queryNorm.split(" ").filter((x) => x.length > 0)`. -/
def searchTokens (queryNorm : String) : List String :=
  ((jsSplitChar ' ' queryNorm.data).map (fun l => String.mk l)).filter
    (fun t => t.length > 0)

/-- The pure tail of `searchWoeid`: score, keep positive scores, sort by the
comparator, take the first `limit`. -/
def searchCore (index : List WoeidRecord) (queryNorm : String) (limit : Int) :
    List ScoredRecord :=
  (stableSort scoredLE
    ((index.map (fun r =>
        ScoredRecord.mk r (scoreRecord r queryNorm (searchTokens queryNorm)))).filter
      (fun x => x.score > 0))).take limit.toNat

/-! ### The cache / network environment of `loadWoeidIndex`

The resolver's effects (file mtime, file contents, `fetch`) are modelled as
an explicit environment; `JSON.parse` results are represented directly as
JSON values (`.error` for unparseable text), and numeric payloads as `Int`,
which covers every shape the claims exercise. -/

inductive Json where
  | null
  | bool (b : Bool)
  | num (n : Int)
  | str (s : String)
  | arr (items : List Json)
  | obj (fields : List (String × Json))
deriving Inhabited

def lookupField (fields : List (String × Json)) (k : String) : Option Json :=
  (fields.find? (fun p => p.1 == k)).map (fun p => p.2)

/-- JS `Number(string)`, restricted to the shapes `parseWoeidRows` meets:
whitespace-only strings give `0`, unsigned decimal digit runs their value,
anything else `NaN` (`none`). -/
def jsNumberOfString (s : String) : Option Int :=
  let t := jsTrim s
  if t.data.isEmpty then some 0
  else if t.data.all Char.isDigit then
    some (t.data.foldl (fun acc c => acc * 10 + ((c.toNat : Int) - 48)) 0)
  else none

/-- One iteration of the row loop of `parseWoeidRows`: skipped rows
(`continue`) become `none`. -/
def parseWoeidRow (j : Json) : Option WoeidRecord :=
  match j with
  | .obj fields =>
    let placeName := match lookupField fields "place_name" with
      | some (.str s) => jsTrim s
      | _ => ""
    let country := match lookupField fields "country" with
      | some (.str s) => jsTrim s
      | _ => ""
    let placeType := match lookupField fields "type" with
      | some (.str s) => jsTrim s
      | _ => ""
    let woeid : Option Int := match lookupField fields "woeid" with
      | some (.num n) => some n
      | some (.str s) => jsNumberOfString s
      | _ => none
    let countryCode := match lookupField fields "country_code" with
      | some (.str s) => some s
      | _ => none
    match woeid with
    | none => none
    | some w =>
      if placeName = "" then none
      else some ⟨placeName, country, w, placeType, countryCode⟩
  | _ => none

/-- `parseWoeidRows` from the woeid module. -/
def parseWoeidRows (v : Json) : Except String (List WoeidRecord) :=
  match v with
  | .arr items =>
    let out := items.filterMap parseWoeidRow
    if out.isEmpty then .error "WOEID index is empty."
    else .ok out
  | _ => .error "WOEID index payload must be an array."

def CACHE_MAX_AGE_MS : Int := 7 * 24 * 60 * 60 * 1000

structure CacheFile where
  mtimeMs : Int
  /-- The `JSON.parse` of the stored text (`.error` if the text is not JSON). -/
  content : Except Unit Json

structure WoeidEnv where
  cache : Option CacheFile
  now : Int
  /-- Outcome of `fetch` + `res.json()`: `.error` for a network failure or a
  non-2xx status, `.ok` the decoded body. -/
  fetchResult : Except Unit Json

/-- `tryReadCache` from the woeid module: any `stat`/read/parse failure (and
a stale mtime when `allowStale` is false) yields `undefined`. -/
def tryReadCache (env : WoeidEnv) (allowStale : Bool) : Option (List WoeidRecord) :=
  match env.cache with
  | none => none
  | some c =>
    if !allowStale && decide (env.now - c.mtimeMs > CACHE_MAX_AGE_MS) then none
    else
      match c.content with
      | .error _ => none
      | .ok j => (parseWoeidRows j).toOption

/-- `fetchRemoteIndex` from the woeid module (the HTTP error message's
status text is not modelled). -/
def fetchRemoteIndex (env : WoeidEnv) : Except String (List WoeidRecord) :=
  match env.fetchResult with
  | .error _ => .error "Failed to fetch WOEID index."
  | .ok payload => parseWoeidRows payload

structure LoadResult where
  result : Except String (List WoeidRecord)
  /-- Whether `fetch` was attempted. -/
  networkCalled : Bool
  /-- The rows written to the cache file, when `writeCache` ran. -/
  cacheWritten : Option (List WoeidRecord)

/-- `loadWoeidIndex` from the woeid module.  (`parseWoeidRows` never returns
an empty array, so the JS truthiness test `if (freshCache)` is a plain
`Option` match.) -/
def loadWoeidIndex (env : WoeidEnv) : LoadResult :=
  match tryReadCache env false with
  | some freshCache => ⟨.ok freshCache, false, none⟩
  | none =>
    match fetchRemoteIndex env with
    | .ok remote => ⟨.ok remote, true, some remote⟩
    | .error _ =>
      match tryReadCache env true with
      | some staleCache => ⟨.ok staleCache, true, none⟩
      | none =>
        ⟨.error "Unable to load WOEID index (network unavailable and no cache found).",
         true, none⟩

structure SearchResult where
  result : Except String (List ScoredRecord)
  /-- Whether `loadWoeidIndex` was invoked at all. -/
  indexLoaded : Bool
  networkCalled : Bool

/-- `searchWoeid` from the woeid module: an empty normalized query short-
circuits before the index is loaded; otherwise the limit is clamped to
`[1, 100]` (default 10) and the scored search runs over the loaded index. -/
def searchWoeid (env : WoeidEnv) (query : String) (limitOpt : Option Int) :
    SearchResult :=
  let queryNorm := normalizeText query
  if queryNorm = "" then ⟨.ok [], false, false⟩
  else
    let limit := max 1 (min (limitOpt.getD 10) 100)
    let load := loadWoeidIndex env
    match load.result with
    | .error e => ⟨.error e, true, load.networkCalled⟩
    | .ok index => ⟨.ok (searchCore index queryNorm limit), true, load.networkCalled⟩

/-! ## Post text rewriting (human-rendering module) -/

/-- `compactWhitespace` from `src/internal/util.ts`:
`.replace(/\s+/g, " ").trim()`. -/
def compactWhitespaceGo : Nat → List Char → List Char
  | _, [] => []
  | 0, l => l
  | fuel + 1, c :: rest =>
    if isWs c then ' ' :: compactWhitespaceGo fuel (rest.dropWhile isWs)
    else c :: compactWhitespaceGo fuel rest

def compactWhitespaceL (l : List Char) : List Char := compactWhitespaceGo l.length l

def compactWhitespace (s : String) : String := ⟨jsTrimL (compactWhitespaceL s.data)⟩

/-- JS `text.split(sep).join(repl)` for a non-empty string separator:
non-overlapping leftmost occurrences of `sep` are cut out.  (The rewriter
only ever calls this with non-empty `t.co` URLs; `sep = []` is mapped to the
identity split.) -/
def splitOnStrGo (sep : List Char) : Nat → List Char → List (List Char)
  | 0, l => [l]
  | fuel + 1, l =>
    if !sep.isEmpty && sep.isPrefixOf l then [] :: splitOnStrGo sep fuel (l.drop sep.length)
    else
      match l with
      | [] => [[]]
      | c :: rest =>
        match splitOnStrGo sep fuel rest with
        | s :: ss => (c :: s) :: ss
        | [] => [[c]]

def splitOnStr (sep l : List Char) : List (List Char) := splitOnStrGo sep (l.length + 1) l

/-- `text.split(shortUrl).join(placeholder)`. -/
def replaceAll (text sep repl : String) : String :=
  String.intercalate repl ((splitOnStr sep.data text.data).map (fun l => String.mk l))

/-- `isTcoUrl` from the human-rendering module. -/
def isTcoUrl (url : String) : Bool :=
  match parseUrlM url with
  | some parts => parts.hostname == "t.co" || parts.hostname == "www.t.co"
  | none =>
    strContains (jsToLower url) "http://t.co/" || strContains (jsToLower url) "https://t.co/"

/-- `looksLikeMediaUrl` from the human-rendering module. -/
def looksLikeMediaUrl (url : Option String) : Bool :=
  match url with
  | none => false
  | some u =>
    if u = "" then false
    else
      match parseUrlM u with
      | some parts =>
        let host := if "www.".data.isPrefixOf parts.hostname.data
          then String.mk (parts.hostname.data.drop 4) else parts.hostname
        let path := jsToLower parts.pathname
        host == "pic.x.com" || host == "pic.twitter.com" ||
          strContains path "/photo/" || strContains path "/video/"
      | none =>
        let lower := jsToLower u
        strContains lower "pic.x.com/" || strContains lower "pic.twitter.com/" ||
          strContains lower "/photo/" || strContains lower "/video/"

/-- `matchesQuotedStatusUrl` from the human-rendering module: JS `!url` /
`!quotedPostId` treat both `undefined` and the empty string as falsy. -/
def matchesQuotedStatusUrl (url : Option String) (quotedPostId : Option String) : Bool :=
  match url, quotedPostId with
  | some u, some q =>
    if u = "" || q = "" then false
    else ((extractPostId u).getD "") == q
  | _, _ => false

/-- One `referenced_tweets` entry, after the duck-typed field extraction
(`type` and `id` read as strings when present). -/
structure RefTweet where
  rtype : Option String
  id : Option String
deriving DecidableEq, Repr

/-- One `entities.urls` entry after field extraction; a missing/non-string
`url` field is the empty `shortUrl` (dropped by `getPostUrlEntities`). -/
structure UrlEntity where
  shortUrl : String
  expandedUrl : Option String
  displayUrl : Option String
deriving DecidableEq, Repr

/-- A post object, after the duck-typed extraction the rewriter performs
(`text` read as a string when present; `referenced_tweets` and
`entities.urls` normalised to arrays, non-object entries dropped). -/
structure Post where
  text : Option String
  referencedTweets : List RefTweet
  urls : List UrlEntity
deriving DecidableEq, Repr

/-- `extractQuotedPostId` from the human-rendering module: the first
`"quoted"` reference with a truthy `id`. -/
def extractQuotedPostId (post : Post) : Option String :=
  go post.referencedTweets
where
  go : List RefTweet → Option String
    | [] => none
    | ref :: rest =>
      if ref.rtype ≠ some "quoted" then go rest
      else
        match ref.id with
        | some id => if id = "" then go rest else some id
        | none => go rest

/-- `getPostUrlEntities` from the human-rendering module. -/
def getPostUrlEntities (post : Post) : List UrlEntity :=
  post.urls.filter (fun e => e.shortUrl.length > 0)

/-- The entity loop of `formatPostText`: `text`, `mediaCounter` and the
`replacements` map, updated entity by entity. -/
def rewriteLoop (quotedPostId : Option String) :
    List UrlEntity → String → Nat → List (String × String) → String
  | [], text, _, _ => text
  | entity :: rest, text, counter, repl =>
    if !isTcoUrl entity.shortUrl then rewriteLoop quotedPostId rest text counter repl
    else
      match (repl.find? (fun p => p.1 == entity.shortUrl)).map (fun p => p.2) with
      | some existing =>
        rewriteLoop quotedPostId rest (replaceAll text entity.shortUrl existing) counter repl
      | none =>
        if matchesQuotedStatusUrl entity.expandedUrl quotedPostId ||
            matchesQuotedStatusUrl entity.displayUrl quotedPostId then
          rewriteLoop quotedPostId rest (replaceAll text entity.shortUrl "[quote]")
            counter ((entity.shortUrl, "[quote]") :: repl)
        else if looksLikeMediaUrl entity.expandedUrl || looksLikeMediaUrl entity.displayUrl then
          let placeholder := "[img" ++ toString (counter + 1) ++ "]"
          rewriteLoop quotedPostId rest (replaceAll text entity.shortUrl placeholder)
            (counter + 1) ((entity.shortUrl, placeholder) :: repl)
        else rewriteLoop quotedPostId rest text counter repl

/-- `formatPostText` from the human-rendering module. -/
def formatPostText (post : Post) : String :=
  let rawText := match post.text with
    | some t => compactWhitespace t
    | none => "-"
  if rawText = "-" then rawText
  else
    let quotedPostId := extractQuotedPostId post
    let urlEntities := getPostUrlEntities post
    if urlEntities.isEmpty then rawText
    else rewriteLoop quotedPostId urlEntities rawText 0 []

/-! ## The inferred `users` command (src/cli.ts) -/

/-- `dedupe` from `src/internal/util.ts` (`Array.from(new Set(values))`):
first occurrences, in order. -/
def dedupeGo : Nat → List String → List String
  | _, [] => []
  | 0, l => l
  | fuel + 1, x :: rest => x :: dedupeGo fuel (rest.filter (fun y => y ≠ x))

def dedupe (l : List String) : List String := dedupeGo l.length l

/-- The message of the `ConfigError` thrown by `requireAtMost100`. -/
def atMost100Message (label : String) (count : Nat) : String :=
  label ++ " accepts at most 100 values per request. Got: " ++ toString count ++ "."

/-- The observable outcome of the inferred branch of `runUsersCommand`
(`src/cli.ts`).  The SDK client is only constructed — and network requests
only issued — in the `proceed` case; every other case prints an error and
returns exit code 1 before `clientFactory()` runs. -/
inductive UsersOutcome where
  | invalidInputs (entries : List (String × String))
  | noValidInputs
  | configError (message : String)
  | proceed (ids usernames : List String)
deriving DecidableEq, Repr

/-- Exit code of the outcome (`none`: the command goes on to perform
network calls). -/
def UsersOutcome.exitCode : UsersOutcome → Option Nat
  | .invalidInputs _ => some 1
  | .noValidInputs => some 1
  | .configError _ => some 1
  | .proceed _ _ => none

/-- Whether the outcome reaches `clientFactory()` / the network. -/
def UsersOutcome.callsNetwork : UsersOutcome → Bool
  | .proceed _ _ => true
  | _ => false

/-- The inferred mode of `runUsersCommand` (`src/cli.ts`, after the explicit
sub-command dispatch): classify every argument, report all invalid entries,
partition into deduplicated ids and usernames, enforce the 100-value bound
per group (ids first), then proceed to the lookups. -/
def runUsersInferred (args : List String) : UsersOutcome :=
  let parsed := args.map parseUserInput
  let invalid := parsed.filter (fun p => p.isInvalid)
  if !invalid.isEmpty then
    .invalidInputs (invalid.map (fun p =>
      match p with
      | .invalid source reason => (source, reason)
      | _ => ("", "")))
  else
    let ids := dedupe (parsed.filterMap (fun p =>
      match p with
      | .id v _ => some v
      | _ => none))
    let usernames := dedupe (parsed.filterMap (fun p =>
      match p with
      | .username v _ => some v
      | _ => none))
    if ids.isEmpty ∧ usernames.isEmpty then .noValidInputs
    else if ids.length > 100 then .configError (atMost100Message "users IDs" ids.length)
    else if usernames.length > 100 then
      .configError (atMost100Message "users usernames" usernames.length)
    else .proceed ids usernames

/-! ## Spec-side comparison definitions

These definitions follow the wording of the specification (not the source)
and are compared against the source translations above. -/

def listMax (l : List Nat) : Nat := l.foldl max 0

/-- The spec's additive description of the WOEID score (claim C3): the plain
sum of the six match bonuses and the per-token bonuses. -/
def scoreSpec (record : WoeidRecord) (queryNorm : String)
    (queryTokens : List String) : Int :=
  let placeNorm := normalizeText record.placeName
  let countryNorm := normalizeText record.country
  let combined := jsTrim (placeNorm ++ " " ++ countryNorm)
  [(if placeNorm = queryNorm then (200 : Int) else 0),
   (if combined = queryNorm then 240 else 0),
   (if strStartsWith placeNorm queryNorm then 120 else 0),
   (if strStartsWith combined queryNorm then 100 else 0),
   (if strContains placeNorm queryNorm then 80 else 0),
   (if strContains combined queryNorm then 60 else 0)].sum +
  (queryTokens.map (fun token =>
    if strContains placeNorm token then (24 : Int)
    else if strContains countryNorm token then 12 else 0)).sum

/-- The ordering the sort comparator realises: strictly higher score first,
ties by place name. -/
def scoredRel (a b : ScoredRecord) : Prop :=
  b.score < a.score ∨ (a.score = b.score ∧ a.record.placeName ≤ b.record.placeName)

/-- A record that matches the query only as a substring of its place name:
neither its normalized place name nor its combined "place country" form
equals or starts with the normalized query, but the place name does contain
it. -/
def subOnlyMatch (r : WoeidRecord) (qn : String) : Prop :=
  strContains (normalizeText r.placeName) qn = true ∧
  normalizeText r.placeName ≠ qn ∧
  strStartsWith (normalizeText r.placeName) qn = false ∧
  jsTrim (normalizeText r.placeName ++ " " ++ normalizeText r.country) ≠ qn ∧
  strStartsWith (jsTrim (normalizeText r.placeName ++ " " ++ normalizeText r.country)) qn = false

instance (r : WoeidRecord) (qn : String) : Decidable (subOnlyMatch r qn) := by
  unfold subOnlyMatch
  infer_instance

/-- The spec's classification of a shortened link (claim C4): quote link,
media link, or plain — with the quote check taking precedence. -/
inductive LinkClass where
  | quote
  | media
  | plain
deriving DecidableEq, Repr

def classifyEntity (quotedPostId : Option String) (e : UrlEntity) : LinkClass :=
  if matchesQuotedStatusUrl e.expandedUrl quotedPostId ||
      matchesQuotedStatusUrl e.displayUrl quotedPostId then .quote
  else if looksLikeMediaUrl e.expandedUrl || looksLikeMediaUrl e.displayUrl then .media
  else .plain

/-- The spec's description of the rewriting pass (claim C4): walk the
shortened-link entities in order; a repeated shortened URL reuses its prior
placeholder without touching the counter; otherwise the link's class decides
between `[quote]`, the next `[imgN]`, or leaving the text alone; every
replacement is literal substring substitution of the shortened URL. -/
def rewriteSpecGo (quotedPostId : Option String) :
    List UrlEntity → String → Nat → List (String × String) → String
  | [], text, _, _ => text
  | e :: rest, text, n, seen =>
    if !isTcoUrl e.shortUrl then rewriteSpecGo quotedPostId rest text n seen
    else
      match (seen.find? (fun p => p.1 == e.shortUrl)).map (fun p => p.2) with
      | some prior => rewriteSpecGo quotedPostId rest (replaceAll text e.shortUrl prior) n seen
      | none =>
        match classifyEntity quotedPostId e with
        | .quote =>
          rewriteSpecGo quotedPostId rest (replaceAll text e.shortUrl "[quote]") n
            ((e.shortUrl, "[quote]") :: seen)
        | .media =>
          rewriteSpecGo quotedPostId rest
            (replaceAll text e.shortUrl ("[img" ++ toString (n + 1) ++ "]")) (n + 1)
            ((e.shortUrl, "[img" ++ toString (n + 1) ++ "]") :: seen)
        | .plain => rewriteSpecGo quotedPostId rest text n seen

/-- The spec-worded counterpart of `formatPostText`. -/
def formatPostTextSpec (post : Post) : String :=
  let rawText := match post.text with
    | some t => compactWhitespace t
    | none => "-"
  if rawText = "-" then rawText
  else
    let quotedPostId := extractQuotedPostId post
    let urlEntities := getPostUrlEntities post
    if urlEntities.isEmpty then rawText
    else rewriteSpecGo quotedPostId urlEntities rawText 0 []

/-!
## Theorems

One theorem per claim (C1–C10), with shared helper lemmas.
-/

/-! ### C8 — `truncate` -/

theorem length_mk (l : List Char) : (String.mk l).length = l.length := rfl

theorem data_mk (l : List Char) : (String.mk l).data = l := rfl

/-- C8: `truncate` leaves inputs of length at most `max` unchanged; for
integer `max ≥ 2` and longer inputs it returns `s.slice(0, max - 1) ++ "..."`,
whose length is `max + 2` — two more than the requested maximum; and for
`max ≤ 1` it returns `s.slice(0, max)`. -/
theorem truncate_contract (s : String) (max : Int) :
    (2 ≤ max → max < (s.length : Int) →
      truncate s max = jsSlice0 s (max - 1) ++ "..." ∧
      ((truncate s max).length : Int) = max + 2) ∧
    ((s.length : Int) ≤ max → truncate s max = s) ∧
    (max ≤ 1 → truncate s max = jsSlice0 s max) := by
  obtain ⟨l⟩ := s
  refine ⟨fun h2 hlen => ?_, fun hfit => ?_, fun hsmall => ?_⟩
  · have hne : ¬ ((String.mk l).length : Int) ≤ max := by omega
    have hgt : ¬ max ≤ 1 := by omega
    have heq : truncate ⟨l⟩ max = jsSlice0 ⟨l⟩ (max - 1) ++ "..." := by
      unfold truncate
      rw [if_neg hne, if_neg hgt]
    refine ⟨heq, ?_⟩
    rw [heq]
    have hstop : ¬ (max - 1 : Int) < 0 := by omega
    have hlen' : (jsSlice0 ⟨l⟩ (max - 1)).length = (max - 1).toNat := by
      simp only [jsSlice0, length_mk, List.length_take]
      rw [if_neg hstop]
      simp only [length_mk] at hlen
      omega
    have : ("..." : String).length = 3 := rfl
    simp only [String.length_append, hlen', this]
    omega
  · unfold truncate
    rw [if_pos hfit]
  · by_cases hfit : ((String.mk l).length : Int) ≤ max
    · have hmax0 : 0 ≤ max := le_trans (by simp) hfit
      have : jsSlice0 ⟨l⟩ max = ⟨l⟩ := by
        simp only [jsSlice0, length_mk]
        rw [if_neg (by omega)]
        congr 1
        have : l.length ≤ (min max (l.length : Int)).toNat := by
          simp only [length_mk] at hfit
          omega
        rw [List.take_of_length_le this]
      rw [this]
      unfold truncate
      rw [if_pos hfit]
    · unfold truncate
      rw [if_neg hfit, if_pos hsmall]

/-- Witness for C8 at concrete inputs. -/
theorem truncate_contract_witness :
    truncate "hello world" 5 = jsSlice0 "hello world" 4 ++ "..." ∧
    ((truncate "hello world" 5).length : Int) = 7 ∧
    truncate "hi" 5 = "hi" ∧
    truncate "abc" (-1) = jsSlice0 "abc" (-1) := by
  have h1 := (truncate_contract "hello world" 5).1 (by decide) (by decide)
  have h2 := (truncate_contract "hi" 5).2.1 (by decide)
  have h3 := (truncate_contract "abc" (-1)).2.2 (by decide)
  exact ⟨h1.1, h1.2, h2, h3⟩

/-! ### C10 — `wrapText` -/

/-- C10: inputs whose ANSI-stripped length fits in `width` are returned as a
single unchanged line, styling intact; when the stripped length exceeds the
width, the output is computed entirely from the ANSI-stripped text, so
matched styling sequences are gone from every wrapped line. -/
theorem wrapText_contract (s : String) (w : Int) :
    (((stripAnsi s).length : Int) ≤ w → wrapText s w = [s]) ∧
    (w < ((stripAnsi s).length : Int) → wrapText s w = wrapPlainText (stripAnsi s) w) := by
  refine ⟨fun h => ?_, fun h => ?_⟩
  · simp only [wrapText]
    rw [if_pos h]
  · simp only [wrapText]
    rw [if_neg (by omega)]

/-- Witness for C10: a styled string that fits stays unchanged; a styled
string that wraps is wrapped from its stripped text. -/
theorem wrapText_contract_witness :
    wrapText "\x1B[31mred\x1B[0m" 10 = ["\x1B[31mred\x1B[0m"] ∧
    wrapText "\x1B[31mred and blue\x1B[0m" 4 = wrapPlainText "red and blue" 4 ∧
    wrapPlainText "red and blue" 4 = ["red", "and", "blue"] := by
  refine ⟨(wrapText_contract "\x1B[31mred\x1B[0m" 10).1 (by decide), ?_, by decide⟩
  have h := (wrapText_contract "\x1B[31mred and blue\x1B[0m" 4).2 (by decide)
  have hs : stripAnsi "\x1B[31mred and blue\x1B[0m" = "red and blue" := by decide
  rw [hs] at h
  exact h

/-! ### C4 — `formatPostText` -/

theorem rewriteLoop_eq_spec (qid : Option String) (ents : List UrlEntity)
    (text : String) (n : Nat) (seen : List (String × String)) :
    rewriteLoop qid ents text n seen = rewriteSpecGo qid ents text n seen := by
  induction ents generalizing text n seen with
  | nil => rfl
  | cons e rest ih =>
    simp only [rewriteLoop, rewriteSpecGo, classifyEntity]
    by_cases h1 : isTcoUrl e.shortUrl
    · simp only [h1, Bool.not_true, Bool.false_eq_true, if_false]
      cases hfind : (List.find? (fun p => p.1 == e.shortUrl) seen).map (fun p => p.2) with
      | some prior => simp only [hfind]; exact ih ..
      | none =>
        simp only [hfind]
        by_cases h2 : (matchesQuotedStatusUrl e.expandedUrl qid ||
            matchesQuotedStatusUrl e.displayUrl qid) = true
        · simp only [h2, if_true]
          exact ih ..
        · simp only [h2, if_false]
          by_cases h3 : (looksLikeMediaUrl e.expandedUrl || looksLikeMediaUrl e.displayUrl) = true
          · simp only [h3, if_true]
            exact ih ..
          · simp only [h3, if_false]
            exact ih ..
    · simp only [Bool.not_eq_true] at h1
      simp only [h1, Bool.not_false, if_true]
      exact ih ..

/-- C4: the post-text rewriter agrees with the spec's description of it —
shortened `t.co` links are processed in order; a repeated shortened URL
reuses its previous placeholder without advancing the counter; otherwise a
link matching the quoted post's `/status/<id>` becomes `[quote]` (the quote
check preceding the media check), a media-looking link becomes the next
`[imgN]`, and any other link is left unchanged; every substitution is
literal substring replacement of the shortened URL. -/
theorem formatPostText_matches_spec (post : Post) :
    formatPostText post = formatPostTextSpec post := by
  simp only [formatPostText, formatPostTextSpec]
  by_cases h : (match post.text with
    | some t => compactWhitespace t
    | none => "-") = "-"
  · rw [if_pos h, if_pos h]
  · rw [if_neg h, if_neg h]
    by_cases h2 : (getPostUrlEntities post).isEmpty
    · rw [if_pos h2, if_pos h2]
    · rw [if_neg h2, if_neg h2]
      exact rewriteLoop_eq_spec ..

/-! ### C1 — the width-fitting loop -/

theorem pickLoop_best_le (l : List (Int × Int)) (i : Nat) (cand : Option Nat) (best : Int) :
    best ≤ (pickLoop l i cand best).2 := by
  induction l generalizing i cand best with
  | nil => simp [pickLoop]
  | cons p rest ih =>
    obtain ⟨w, m⟩ := p
    simp only [pickLoop]
    by_cases h : w - m ≥ best
    · rw [if_pos h]; exact le_trans h (ih ..)
    · rw [if_neg h]; exact ih ..

theorem pickLoop_slack_le (l : List (Int × Int)) (i : Nat) (cand : Option Nat) (best : Int) :
    ∀ k, k < l.length → (l.getD k (0, 0)).1 - (l.getD k (0, 0)).2 ≤ (pickLoop l i cand best).2 := by
  induction l generalizing i cand best with
  | nil => intro k hk; simp at hk
  | cons p rest ih =>
    intro k hk
    obtain ⟨w, m⟩ := p
    cases k with
    | zero =>
      simp only [List.getD_cons_zero]
      simp only [pickLoop]
      by_cases h : w - m ≥ best
      · rw [if_pos h]; exact pickLoop_best_le ..
      · rw [if_neg h]
        exact le_trans (le_of_lt (by omega)) (pickLoop_best_le ..)
    | succ k' =>
      simp only [List.getD_cons_succ]
      simp only [pickLoop]
      by_cases h : w - m ≥ best
      · rw [if_pos h]; exact ih (i + 1) (some i) (w - m) k' (by simpa using hk)
      · rw [if_neg h]; exact ih (i + 1) cand best k' (by simpa using hk)

theorem pickLoop_none_cand :
    ∀ {l : List (Int × Int)} {i cand best}, (pickLoop l i cand best).1 = none → cand = none := by
  intro l
  induction l with
  | nil => intro i cand best h; exact h
  | cons p rest ih =>
    intro i cand best h
    obtain ⟨w, m⟩ := p
    simp only [pickLoop] at h
    by_cases hc : w - m ≥ best
    · rw [if_pos hc] at h
      exact absurd (ih h) (by simp)
    · rw [if_neg hc] at h
      exact ih h

theorem pickLoop_none_best :
    ∀ {l : List (Int × Int)} {i best}, (pickLoop l i none best).1 = none →
      (pickLoop l i none best).2 = best := by
  intro l
  induction l with
  | nil => intro i best _; rfl
  | cons p rest ih =>
    intro i best h
    obtain ⟨w, m⟩ := p
    simp only [pickLoop] at h ⊢
    by_cases hc : w - m ≥ best
    · rw [if_pos hc] at h
      exact absurd (pickLoop_none_cand h) (by simp)
    · rw [if_neg hc] at h ⊢
      exact ih h

theorem pickLoop_some (l : List (Int × Int)) :
    ∀ (i : Nat) (cand : Option Nat) (best : Int) (j : Nat),
      (pickLoop l i cand best).1 = some j →
      (cand = some j ∧ (pickLoop l i cand best).2 = best) ∨
      ∃ k, k < l.length ∧ j = i + k ∧
        (l.getD k (0, 0)).1 - (l.getD k (0, 0)).2 = (pickLoop l i cand best).2 := by
  induction l with
  | nil =>
    intro i cand best j h
    exact Or.inl ⟨h, rfl⟩
  | cons p rest ih =>
    intro i cand best j h
    obtain ⟨w, m⟩ := p
    by_cases hc : w - m ≥ best
    · simp only [pickLoop, if_pos hc] at h ⊢
      rcases ih (i + 1) (some i) (w - m) j h with ⟨hcand, hbest⟩ | ⟨k, hk, hj, hs⟩
      · right
        refine ⟨0, by simp, ?_, ?_⟩
        · cases hcand; omega
        · simp only [List.getD_cons_zero]
          rw [hbest]
      · right
        exact ⟨k + 1, by simpa using hk, by omega, by simpa [List.getD_cons_succ] using hs⟩
    · simp only [pickLoop, if_neg hc] at h ⊢
      rcases ih (i + 1) cand best j h with ⟨hcand, hbest⟩ | ⟨k, hk, hj, hs⟩
      · exact Or.inl ⟨hcand, hbest⟩
      · right
        exact ⟨k + 1, by simpa using hk, by omega, by simpa [List.getD_cons_succ] using hs⟩

theorem slackPairs_length (out minW : List Int) :
    (slackPairs out minW).length = out.length := by
  simp [slackPairs]

theorem slackPairs_getD {out minW : List Int} {k : Nat} (hk : k < out.length) :
    (slackPairs out minW).getD k (0, 0) = (out.getD k 0, minW.getD k 1) := by
  simp [slackPairs, List.getD_eq_getElem?_getD, List.getElem?_map, List.getElem?_range, hk]

theorem pickCandidate_spec {out minW : List Int} {i : Nat}
    (h : pickCandidate out minW = some i) :
    i < out.length ∧ minW.getD i 1 < out.getD i 0 := by
  unfold pickCandidate at h
  rcases hp : pickLoop (slackPairs out minW) 0 none 0 with ⟨c, b⟩
  rw [hp] at h
  cases c with
  | none => simp at h
  | some j =>
    simp only at h
    by_cases hb : b ≤ 0
    · rw [if_pos hb] at h
      exact absurd h (by simp)
    · rw [if_neg hb] at h
      have hji : j = i := by simpa using h
      subst hji
      have hsome := pickLoop_some (slackPairs out minW) 0 none 0 j (by rw [hp])
      rcases hsome with ⟨hcand, _⟩ | ⟨k, hk, hj, hs⟩
      · exact absurd hcand (by simp)
      · rw [slackPairs_length] at hk
        have hjk : j = k := by omega
        subst hjk
        rw [slackPairs_getD hk, hp] at hs
        simp only at hs
        exact ⟨hk, by omega⟩

theorem pickCandidate_none {out minW : List Int} (h : pickCandidate out minW = none) :
    ∀ k, k < out.length → out.getD k 0 - minW.getD k 1 ≤ 0 := by
  intro k hk
  unfold pickCandidate at h
  rcases hp : pickLoop (slackPairs out minW) 0 none 0 with ⟨c, b⟩
  rw [hp] at h
  have hslack := pickLoop_slack_le (slackPairs out minW) 0 none 0 k
    (by rw [slackPairs_length]; exact hk)
  rw [hp, slackPairs_getD hk] at hslack
  simp only at hslack
  cases c with
  | none =>
    have hb : b = 0 := by
      have := @pickLoop_none_best (slackPairs out minW) 0 0 (by rw [hp])
      rw [hp] at this
      exact this
    omega
  | some j =>
    simp only at h
    by_cases hb : b ≤ 0
    · omega
    · rw [if_neg hb] at h
      exact absurd h (by simp)

theorem sum_set_int (l : List Int) (i : Nat) (v : Int) (h : i < l.length) :
    (l.set i v).sum = l.sum - l.getD i 0 + v := by
  induction l generalizing i with
  | nil => simp at h
  | cons a rest ih =>
    cases i with
    | zero => simp [List.getD_cons_zero]; ring
    | succ i' =>
      simp only [List.set, List.getD_cons_succ, List.sum_cons]
      rw [ih i' (by simpa using h)]
      ring

theorem totalWidth_set {out : List Int} {i : Nat} (h : i < out.length) :
    totalWidth (out.set i (out.getD i 0 - 1)) = totalWidth out - 1 := by
  simp only [totalWidth, sum_set_int out i _ h, List.length_set]
  ring

theorem getD_set_self {l : List Int} {i : Nat} (h : i < l.length) (v : Int) :
    (l.set i v).getD i 0 = v := by
  simp [List.getD_eq_getElem?_getD, List.getElem?_set_self h]

theorem getD_set_other {l : List Int} {i j : Nat} (hne : i ≠ j) (v : Int) :
    (l.set i v).getD j 0 = l.getD j 0 := by
  simp [List.getD_eq_getElem?_getD, List.getElem?_set_ne hne]

theorem shrinkGo_length (fuel : Nat) (out minW : List Int) (maxW : Int) :
    (shrinkGo fuel out minW maxW).length = out.length := by
  induction fuel generalizing out with
  | zero => rfl
  | succ f ih =>
    simp only [shrinkGo]
    by_cases ht : totalWidth out > maxW
    · rw [if_pos ht]
      cases hp : pickCandidate out minW with
      | some i => simp only [ih, List.length_set]
      | none => rfl
    · rw [if_neg ht]

theorem shrinkGo_ge_min (fuel : Nat) (out minW : List Int) (maxW : Int) :
    ∀ j, min (out.getD j 0) (minW.getD j 1) ≤ (shrinkGo fuel out minW maxW).getD j 0 := by
  induction fuel generalizing out with
  | zero => intro j; exact min_le_left _ _
  | succ f ih =>
    intro j
    simp only [shrinkGo]
    by_cases ht : totalWidth out > maxW
    · rw [if_pos ht]
      cases hp : pickCandidate out minW with
      | none => exact min_le_left _ _
      | some i =>
        simp only
        have hi := pickCandidate_spec hp
        refine le_trans ?_ (ih (out.set i (out.getD i 0 - 1)) j)
        by_cases hij : i = j
        · subst hij
          rw [getD_set_self hi.1]
          omega
        · rw [getD_set_other hij]
    · rw [if_neg ht]; exact min_le_left _ _

theorem shrinkGo_stops (minW : List Int) (maxW : Int) :
    ∀ (fuel : Nat) (out : List Int), (totalWidth out - maxW).toNat ≤ fuel →
      totalWidth (shrinkGo fuel out minW maxW) ≤ maxW ∨
      pickCandidate (shrinkGo fuel out minW maxW) minW = none := by
  intro fuel
  induction fuel with
  | zero =>
    intro out h
    left
    simp only [shrinkGo]
    omega
  | succ f ih =>
    intro out h
    simp only [shrinkGo]
    by_cases ht : totalWidth out > maxW
    · rw [if_pos ht]
      cases hp : pickCandidate out minW with
      | none => exact Or.inr hp
      | some i =>
        simp only
        apply ih
        have hi := pickCandidate_spec hp
        rw [totalWidth_set hi.1]
        omega
    · rw [if_neg ht]
      left
      omega

/-- The `while` loop of `shrinkWidthsToFit`, one iteration at a time: when
the total fits the budget nothing changes; otherwise the column with the
most slack loses one unit and the loop continues, and when no column has
positive slack the loop breaks. -/
theorem shrinkWidthsToFit_unfold (widths minW : List Int) (maxW : Int) :
    shrinkWidthsToFit widths minW maxW =
      if totalWidth widths ≤ maxW then widths
      else
        match pickCandidate widths minW with
        | none => widths
        | some i => shrinkWidthsToFit (widths.set i (widths.getD i 0 - 1)) minW maxW := by
  by_cases ht : totalWidth widths ≤ maxW
  · rw [if_pos ht]
    unfold shrinkWidthsToFit
    have h0 : (totalWidth widths - maxW).toNat = 0 := by omega
    rw [h0]
    rfl
  · rw [if_neg ht]
    unfold shrinkWidthsToFit
    have h1 : (totalWidth widths - maxW).toNat = ((totalWidth widths - maxW).toNat - 1) + 1 := by
      omega
    rw [h1]
    simp only [shrinkGo]
    rw [if_pos (by omega)]
    cases hp : pickCandidate widths minW with
    | none => rfl
    | some i =>
      simp only
      congr 1
      have hi := pickCandidate_spec hp
      rw [totalWidth_set hi.1]
      omega

theorem natWidths_length (headers : List String) (rows : List (List String)) :
    (natWidths headers rows).length = headers.length := by
  unfold natWidths
  suffices h : ∀ (init : List Int),
      (rows.foldl (fun ws row =>
        ws.mapIdx (fun i w => max w ((stripAnsi (row.getD i "")).length : Int))) init).length =
      init.length by
    rw [h]; simp
  intro init
  induction rows generalizing init with
  | nil => rfl
  | cons r rs ih =>
    simp only [List.foldl_cons]
    rw [ih]
    simp

theorem minWidthsOf_le_natWidths (headers : List String) (rows : List (List String))
    (opts : TableOpts) {j : Nat} (hj : j < headers.length) :
    (minWidthsOf headers rows opts).getD j 1 ≤ (natWidths headers rows).getD j 0 := by
  unfold minWidthsOf
  have hj' : j < (natWidths headers rows).length := by
    rw [natWidths_length]; exact hj
  simp only [List.getD_eq_getElem?_getD, List.getElem?_mapIdx,
    List.getElem?_eq_getElem hj', Option.map_some, Option.getD_some]
  exact min_le_left _ _

/-- C1: for a finite `maxWidth`, `renderTable`'s fitted widths are exactly
`shrinkWidthsToFit` of the natural widths against the computed minimum
widths and the clamped budget `max 20 maxWidth`; the shrink loop removes one
unit of width from the column with the most slack per iteration
(`shrinkWidthsToFit_unfold` restated below); no column ever drops below its
computed minimum; and the loop stops exactly when the total fits the budget
or no column has positive slack — even if the total still exceeds the
budget. -/
theorem renderTable_width_fitting (headers : List String) (rows : List (List String))
    (mcw : Option Int) (minWs : List Int) (m : Int) :
    fittedWidthsOf headers rows ⟨some m, mcw, minWs⟩ =
      shrinkWidthsToFit (natWidths headers rows)
        (minWidthsOf headers rows ⟨some m, mcw, minWs⟩) (max 20 m) ∧
    (∀ (widths minW : List Int) (maxW : Int),
      shrinkWidthsToFit widths minW maxW =
        if totalWidth widths ≤ maxW then widths
        else
          match pickCandidate widths minW with
          | none => widths
          | some i => shrinkWidthsToFit (widths.set i (widths.getD i 0 - 1)) minW maxW) ∧
    (∀ j, j < headers.length →
      (minWidthsOf headers rows ⟨some m, mcw, minWs⟩).getD j 1 ≤
        (fittedWidthsOf headers rows ⟨some m, mcw, minWs⟩).getD j 0) ∧
    (totalWidth (fittedWidthsOf headers rows ⟨some m, mcw, minWs⟩) ≤ max 20 m ∨
      ∀ k, k < (fittedWidthsOf headers rows ⟨some m, mcw, minWs⟩).length →
        (fittedWidthsOf headers rows ⟨some m, mcw, minWs⟩).getD k 0 -
          (minWidthsOf headers rows ⟨some m, mcw, minWs⟩).getD k 1 ≤ 0) := by
  refine ⟨rfl, shrinkWidthsToFit_unfold, fun j hj => ?_, ?_⟩
  · have hmin := minWidthsOf_le_natWidths headers rows ⟨some m, mcw, minWs⟩ hj
    have hge := shrinkGo_ge_min (totalWidth (natWidths headers rows) - max 20 m).toNat
      (natWidths headers rows) (minWidthsOf headers rows ⟨some m, mcw, minWs⟩) (max 20 m) j
    simp only [fittedWidthsOf, shrinkWidthsToFit]
    omega
  · have hstop := shrinkGo_stops (minWidthsOf headers rows ⟨some m, mcw, minWs⟩) (max 20 m)
      (totalWidth (natWidths headers rows) - max 20 m).toNat (natWidths headers rows) (le_refl _)
    simp only [fittedWidthsOf, shrinkWidthsToFit]
    rcases hstop with h | h
    · exact Or.inl h
    · exact Or.inr (pickCandidate_none h)

/-- Witness for C1 at a concrete table: two columns of natural widths 30 and
3 squeezed into a budget of 25. -/
theorem renderTable_width_fitting_witness :
    fittedWidthsOf ["a", "b"]
        [[String.mk (List.replicate 30 'x'), "yyy"]] ⟨some 25, none, []⟩ =
      shrinkWidthsToFit
        (natWidths ["a", "b"] [[String.mk (List.replicate 30 'x'), "yyy"]])
        (minWidthsOf ["a", "b"] [[String.mk (List.replicate 30 'x'), "yyy"]]
          ⟨some 25, none, []⟩) (max 20 25) ∧
    (minWidthsOf ["a", "b"] [[String.mk (List.replicate 30 'x'), "yyy"]]
        ⟨some 25, none, []⟩).getD 0 1 ≤
      (fittedWidthsOf ["a", "b"] [[String.mk (List.replicate 30 'x'), "yyy"]]
        ⟨some 25, none, []⟩).getD 0 0 := by
  have h := renderTable_width_fitting ["a", "b"]
    [[String.mk (List.replicate 30 'x'), "yyy"]] none [] 25
  exact ⟨h.1, h.2.2.1 0 (by decide)⟩

/-! ### C7 — row wrapping and row height -/

theorem hardChunksGo_spec (w : Nat) :
    ∀ (fuel : Nat) (l : List Char), l.length ≤ fuel → l ≠ [] →
      hardChunksGo w fuel l ≠ [] ∧
      ((hardChunksGo w fuel l).map String.data).flatten = l ∧
      (∀ s ∈ (hardChunksGo w fuel l).dropLast, s.length = w + 1) ∧
      (∀ s ∈ hardChunksGo w fuel l, s.length ≤ w + 1) := by
  intro fuel
  induction fuel with
  | zero =>
    intro l hlen hne
    cases l with
    | nil => exact absurd rfl hne
    | cons c rest => simp at hlen
  | succ f ih =>
    intro l hlen hne
    cases l with
    | nil => exact absurd rfl hne
    | cons c rest =>
      simp only [hardChunksGo]
      by_cases hdrop : rest.drop w = []
      · have hrw : rest.length ≤ w := by
          have := rest.length_drop w
          rw [hdrop] at this
          simp at this
          omega
        have htake : rest.take w = rest := List.take_of_length_le hrw
        have hnil : hardChunksGo w f [] = [] := by cases f <;> rfl
        rw [hdrop, hnil]
        refine ⟨by simp, ?_, ?_, ?_⟩
        · simp [data_mk, htake]
        · intro s hs
          simp at hs
        · intro s hs
          simp only [List.mem_singleton] at hs
          subst hs
          simp only [length_mk, List.length_cons, List.length_take]
          omega
      · have hrest : w < rest.length := by
          by_contra hc
          exact hdrop (List.drop_eq_nil_of_le (by omega))
        have hlen' : (rest.drop w).length ≤ f := by
          rw [rest.length_drop w]
          simp only [List.length_cons] at hlen
          omega
        obtain ⟨ihne, ihflat, ihinit, ihall⟩ := ih (rest.drop w) hlen' hdrop
        refine ⟨by simp, ?_, ?_, ?_⟩
        · simp only [List.map_cons, List.flatten_cons, ihflat, data_mk]
          rw [List.cons_append, List.take_append_drop]
        · intro s hs
          rw [List.dropLast_cons_of_ne_nil ihne] at hs
          rcases List.mem_cons.mp hs with h | h
          · subst h
            simp only [length_mk, List.length_cons, List.length_take]
            omega
          · exact ihinit s h
        · intro s hs
          rcases List.mem_cons.mp hs with h | h
          · subst h
            simp only [length_mk, List.length_cons, List.length_take]
            omega
          · exact ihall s h

theorem hardChunks_spec (w : Nat) (l : List Char) (hne : l ≠ []) :
    hardChunks w l ≠ [] ∧
    ((hardChunks w l).map String.data).flatten = l ∧
    (∀ s ∈ (hardChunks w l).dropLast, s.length = w + 1) ∧
    (∀ s ∈ hardChunks w l, s.length ≤ w + 1) :=
  hardChunksGo_spec w l.length l (le_refl _) hne

theorem foldl_max_init (l : List Nat) : ∀ a b : Nat, l.foldl max (max a b) = max a (l.foldl max b) := by
  induction l with
  | nil => intro a b; rfl
  | cons c rest ih =>
    intro a b
    simp only [List.foldl_cons]
    rw [max_assoc, ih]

theorem rowHeightOf_eq (wrapped : List (List String)) :
    rowHeightOf wrapped = max 1 (listMax (wrapped.map List.length)) := by
  unfold rowHeightOf listMax
  rw [← List.foldl_map List.length max wrapped 1]
  have h1 : (1 : Nat) = max 1 0 := rfl
  rw [h1, foldl_max_init]
  omega

theorem getD_nonneg {l : List Int} (h : ∀ x ∈ l, 0 ≤ x) {d : Int} (hd : 0 ≤ d) (j : Nat) :
    0 ≤ l.getD j d := by
  rw [List.getD_eq_getElem?_getD]
  cases hx : l[j]? with
  | none => simpa [hx] using hd
  | some x => simp only [hx, Option.getD_some]; exact h x (List.getElem?_mem hx)

theorem natWidths_nonneg (headers : List String) (rows : List (List String)) :
    ∀ x ∈ natWidths headers rows, 0 ≤ x := by
  unfold natWidths
  have hbase : ∀ x ∈ headers.map (fun h => ((stripAnsi h).length : Int)), 0 ≤ x := by
    intro x hx
    obtain ⟨b, _, rfl⟩ := List.mem_map.mp hx
    exact Int.natCast_nonneg _
  generalize headers.map (fun h => ((stripAnsi h).length : Int)) = init at hbase ⊢
  induction rows generalizing init with
  | nil => exact hbase
  | cons r rest ih =>
    simp only [List.foldl_cons]
    apply ih
    intro x hx
    obtain ⟨i, hi, rfl⟩ := List.mem_iff_getElem.mp hx
    rw [List.getElem_mapIdx]
    exact le_max_of_le_right (Int.natCast_nonneg _)

theorem minWidthsOf_nonneg (headers : List String) (rows : List (List String))
    (opts : TableOpts) : ∀ x ∈ minWidthsOf headers rows opts, 0 ≤ x := by
  intro x hx
  unfold minWidthsOf at hx
  obtain ⟨i, hi, rfl⟩ := List.mem_iff_getElem.mp hx
  rw [List.getElem_mapIdx]
  dsimp only
  refine le_min (natWidths_nonneg headers rows _ (List.getElem_mem _)) ?_
  exact le_max_of_le_left (Int.natCast_nonneg _)

theorem fittedWidthsOf_nonneg (headers : List String) (rows : List (List String))
    (opts : TableOpts) (j : Nat) : 0 ≤ (fittedWidthsOf headers rows opts).getD j 0 := by
  unfold fittedWidthsOf
  cases hm : opts.maxWidth with
  | none => exact getD_nonneg (natWidths_nonneg headers rows) le_rfl j
  | some m =>
    unfold shrinkWidthsToFit
    have h := shrinkGo_ge_min (totalWidth (natWidths headers rows) - max 20 m).toNat
      (natWidths headers rows) (minWidthsOf headers rows opts) (max 20 m) j
    have h1 : 0 ≤ (natWidths headers rows).getD j 0 :=
      getD_nonneg (natWidths_nonneg headers rows) le_rfl j
    have h2 : 0 ≤ (minWidthsOf headers rows opts).getD j 1 :=
      getD_nonneg (minWidthsOf_nonneg headers rows opts) zero_le_one j
    exact le_trans (le_min h1 h2) h

/-- C7 (amended): the rendered height of every row is the maximum over the
row's cells of the number of wrapped lines, with a minimum of one (empty
cells included); every final column width `renderTable` produces is
nonnegative; for final column widths of at least 2, a cell whose
ANSI-stripped text exceeds the width is wrapped by the newline-splitting,
trimming, whitespace-delimited greedy word wrap of its stripped text; for
final column widths of at most 1, a cell whose ANSI-stripped text exceeds
the width is instead split into the individual characters of its stripped
text, whitespace characters included; and a single word longer than the
column width is hard-split into chunks of exactly the column width, the
last chunk possibly shorter. -/
theorem renderTable_row_wrapping (headers : List String) (rows : List (List String))
    (opts : TableOpts) (fitted : List Int) (row : List String) (cell : String) (w : Int) :
    (renderRowLines headers fitted row).length =
      max 1 (listMax ((wrappedCellsOf headers fitted row).map List.length)) ∧
    (∀ j, 0 ≤ (fittedWidthsOf headers rows opts).getD j 0) ∧
    (2 ≤ w → w < ((stripAnsi cell).length : Int) →
      wrapText cell w =
        (let chunks := (jsSplitChar '\n' (stripAnsi cell).data).flatMap (wrapSegment w)
         if chunks.length > 0 then chunks else [""])) ∧
    (∀ w' : Int, 0 ≤ w' → w' ≤ 1 → w' < ((stripAnsi cell).length : Int) →
      wrapText cell w' = (stripAnsi cell).data.map (fun c => String.mk [c])) ∧
    (∀ (width : Nat) (word : List Char), 1 ≤ width → word ≠ [] →
      hardChunks (width - 1) word ≠ [] ∧
      ((hardChunks (width - 1) word).map String.data).flatten = word ∧
      (∀ s ∈ (hardChunks (width - 1) word).dropLast, s.length = width) ∧
      (∀ s ∈ hardChunks (width - 1) word, s.length ≤ width)) := by
  refine ⟨?_, fittedWidthsOf_nonneg headers rows opts,
    fun h2 hlen => ?_, fun w' h0 h1 hlen => ?_, fun width word hw hne => ?_⟩
  · simp only [renderRowLines, List.length_map, List.length_range]
    exact rowHeightOf_eq _
  · simp only [wrapText]
    rw [if_neg (by omega)]
    simp only [wrapPlainText]
    rw [if_neg (by omega)]
  · simp only [wrapText]
    rw [if_neg (by omega)]
    simp only [wrapPlainText]
    rw [if_pos h1, if_neg (by omega)]
  · have h := hardChunks_spec (width - 1) word hne
    have hw1 : width - 1 + 1 = width := by omega
    rw [hw1] at h
    exact h

/-- Witness for C7 (amended) at concrete inputs. -/
theorem renderTable_row_wrapping_witness :
    (renderRowLines ["A", "B"] [5, 6] ["hello world", ""]).length =
      max 1 (listMax ((wrappedCellsOf ["A", "B"] [5, 6] ["hello world", ""]).map List.length)) ∧
    0 ≤ (fittedWidthsOf ["A", "B"] [["hello world", ""]] ⟨some 20, none, []⟩).getD 0 0 ∧
    wrapText "\x1B[31mlong words here\x1B[0m" 5 =
      (let chunks := (jsSplitChar '\n'
          (stripAnsi "\x1B[31mlong words here\x1B[0m").data).flatMap (wrapSegment 5)
       if chunks.length > 0 then chunks else [""]) ∧
    wrapText "\x1B[31mlong words here\x1B[0m" 1 =
      (stripAnsi "\x1B[31mlong words here\x1B[0m").data.map (fun c => String.mk [c]) ∧
    ((hardChunks 2 "abcdefg".data).map String.data).flatten = "abcdefg".data ∧
    (∀ s ∈ (hardChunks 2 "abcdefg".data).dropLast, s.length = 3) := by
  have h := renderTable_row_wrapping ["A", "B"] [["hello world", ""]] ⟨some 20, none, []⟩
    [5, 6] ["hello world", ""] "\x1B[31mlong words here\x1B[0m" 5
  have h3 := h.2.2.2.2 3 "abcdefg".data (by decide) (by decide)
  exact ⟨h.1, h.2.1 0, h.2.2.1 (by decide) (by decide),
    h.2.2.2.1 1 (by decide) (by decide) (by decide), h3.2.1, h3.2.2.1⟩

/-- C7 counterexample: the claim's whitespace-delimited wrapping description
fails at a final column width of 1, which `renderTable` itself can produce —
the cell `"a b"` is split into the three one-character lines
`["a", " ", "b"]`, so a whitespace-only non-empty line is emitted, which no
whitespace-delimited word wrap of `"a b"` contains. -/
theorem renderTable_row_wrapping_counterexample :
    fittedWidthsOf (List.replicate 11 "h") [List.replicate 11 "a b"]
        ⟨some 20, none, List.replicate 11 1⟩ = List.replicate 11 (1 : Int) ∧
    wrapText "a b" 1 = ["a", " ", "b"] ∧
    (" " : String) ∈ wrapText "a b" 1 ∧
    jsTrim " " = "" ∧ (" " : String) ≠ "" := by
  refine ⟨by decide, by decide, by decide, by decide, by decide⟩

/-! ### C2 — `loadWoeidIndex` degradation order -/

/-- C2: the resolver's degradation order.  A cache file younger than 7 days
whose text parses into a non-empty index is returned with no network call
and no cache write; otherwise the remote index is fetched and, on success,
written to the cache path and returned; on fetch or remote-parse failure the
cache is read again with the age check disabled and returned if usable; and
only when that also fails does the call fail, with the error stating that
the network is unavailable and no cache was found. -/
theorem loadWoeidIndex_degradation (env : WoeidEnv) (c : CacheFile) (j : Json)
    (rows remote stale : List WoeidRecord) :
    (env.cache = some c → env.now - c.mtimeMs ≤ CACHE_MAX_AGE_MS →
      c.content = .ok j → parseWoeidRows j = .ok rows →
      loadWoeidIndex env = ⟨.ok rows, false, none⟩) ∧
    (tryReadCache env false = none → fetchRemoteIndex env = .ok remote →
      loadWoeidIndex env = ⟨.ok remote, true, some remote⟩) ∧
    (tryReadCache env false = none → (fetchRemoteIndex env).toOption = none →
      tryReadCache env true = some stale →
      loadWoeidIndex env = ⟨.ok stale, true, none⟩) ∧
    (tryReadCache env false = none → (fetchRemoteIndex env).toOption = none →
      tryReadCache env true = none →
      loadWoeidIndex env =
        ⟨.error "Unable to load WOEID index (network unavailable and no cache found).",
         true, none⟩) := by
  refine ⟨fun hc hage hcontent hparse => ?_, fun hfresh hfetch => ?_,
    fun hfresh hfetch hstale => ?_, fun hfresh hfetch hstale => ?_⟩
  · have hfresh : tryReadCache env false = some rows := by
      unfold tryReadCache
      simp only [hc]
      rw [if_neg (by simp only [Bool.not_false, Bool.true_and, decide_eq_true_eq]; omega)]
      simp only [hcontent, hparse, Except.toOption]
    unfold loadWoeidIndex
    simp only [hfresh]
  · unfold loadWoeidIndex
    simp only [hfresh, hfetch]
  · unfold loadWoeidIndex
    cases hf : fetchRemoteIndex env with
    | ok v => rw [hf] at hfetch; simp [Except.toOption] at hfetch
    | error e => simp only [hfresh, hf, hstale]
  · unfold loadWoeidIndex
    cases hf : fetchRemoteIndex env with
    | ok v => rw [hf] at hfetch; simp [Except.toOption] at hfetch
    | error e => simp only [hfresh, hf, hstale]

/-- Witness for C2: the four branches at concrete environments.  `rowsW` is
the parse of `payloadW`. -/
theorem loadWoeidIndex_degradation_witness :
    (loadWoeidIndex ⟨some ⟨0, .ok (Json.arr [Json.obj
        [("place_name", Json.str "Tokyo"), ("woeid", Json.num 1118370)]])⟩, 1000, .error ()⟩ =
      ⟨.ok [⟨"Tokyo", "", 1118370, "", none⟩], false, none⟩) ∧
    (loadWoeidIndex ⟨none, 1000, .ok (Json.arr [Json.obj
        [("place_name", Json.str "Tokyo"), ("woeid", Json.num 1118370)]])⟩ =
      ⟨.ok [⟨"Tokyo", "", 1118370, "", none⟩], true,
        some [⟨"Tokyo", "", 1118370, "", none⟩]⟩) ∧
    (loadWoeidIndex ⟨some ⟨0, .ok (Json.arr [Json.obj
        [("place_name", Json.str "Tokyo"), ("woeid", Json.num 1118370)]])⟩,
        605000000000, .error ()⟩ =
      ⟨.ok [⟨"Tokyo", "", 1118370, "", none⟩], true, none⟩) ∧
    (loadWoeidIndex ⟨none, 1000, .error ()⟩ =
      ⟨.error "Unable to load WOEID index (network unavailable and no cache found).",
       true, none⟩) := by
  refine ⟨?_, ?_, ?_, ?_⟩
  · exact (loadWoeidIndex_degradation _
      ⟨0, .ok (Json.arr [Json.obj [("place_name", Json.str "Tokyo"), ("woeid", Json.num 1118370)]])⟩
      (Json.arr [Json.obj [("place_name", Json.str "Tokyo"), ("woeid", Json.num 1118370)]])
      [⟨"Tokyo", "", 1118370, "", none⟩] [] []).1 rfl (by decide) rfl rfl
  · exact (loadWoeidIndex_degradation _ ⟨0, .error ()⟩ Json.null []
      [⟨"Tokyo", "", 1118370, "", none⟩] []).2.1 rfl rfl
  · exact (loadWoeidIndex_degradation _ ⟨0, .error ()⟩ Json.null [] []
      [⟨"Tokyo", "", 1118370, "", none⟩]).2.2.1 rfl rfl rfl
  · exact (loadWoeidIndex_degradation _ ⟨0, .error ()⟩ Json.null [] [] []).2.2.2 rfl rfl rfl

/-! ### C9 — `searchWoeid` short-circuit and limit clamp -/

/-- C9: an empty normalized query returns the empty list without loading the
index (no cache read, no network); otherwise the index is loaded and the
caller's limit is clamped to `[1, 100]` (default 10), so the result never
holds more than 100 entries — nor more than the clamped limit. -/
theorem searchWoeid_limits (env : WoeidEnv) (query : String) (limitOpt : Option Int)
    (index : List WoeidRecord) (qn : String) (limit : Int) :
    (normalizeText query = "" → searchWoeid env query limitOpt = ⟨.ok [], false, false⟩) ∧
    (normalizeText query ≠ "" → (loadWoeidIndex env).result = .ok index →
      searchWoeid env query limitOpt =
        ⟨.ok (searchCore index (normalizeText query)
            (max 1 (min (limitOpt.getD 10) 100))), true, (loadWoeidIndex env).networkCalled⟩) ∧
    (1 ≤ max 1 (min (limitOpt.getD 10) 100) ∧ max 1 (min (limitOpt.getD 10) 100) ≤ 100) ∧
    ((searchCore index qn limit).length ≤ limit.toNat) ∧
    (limit = max 1 (min (limitOpt.getD 10) 100) → (searchCore index qn limit).length ≤ 100) := by
  have hlen : (searchCore index qn limit).length ≤ limit.toNat := by
    unfold searchCore
    simp [List.length_take]
  refine ⟨fun hq => ?_, fun hq hload => ?_, ⟨le_max_left _ _, by omega⟩, hlen, fun hl => ?_⟩
  · unfold searchWoeid
    rw [if_pos hq]
  · unfold searchWoeid
    rw [if_neg hq]
    simp only [hload]
  · have : limit.toNat ≤ 100 := by omega
    omega

/-- Witness for C9 at concrete inputs. -/
theorem searchWoeid_limits_witness :
    searchWoeid ⟨none, 0, .error ()⟩ "  ,,  " (some 50) = ⟨.ok [], false, false⟩ ∧
    (searchCore [⟨"Tokyo", "Japan", 1118370, "Town", none⟩] "tokyo" 3).length ≤ 3 ∧
    (searchCore [⟨"Tokyo", "Japan", 1118370, "Town", none⟩] "tokyo"
      (max 1 (min ((some (2000 : Int)).getD 10) 100))).length ≤ 100 := by
  refine ⟨?_, ?_, ?_⟩
  · exact (searchWoeid_limits ⟨none, 0, .error ()⟩ "  ,,  " (some 50) [] "" 0).1 (by decide)
  · exact (searchWoeid_limits ⟨none, 0, .error ()⟩ "" none
      [⟨"Tokyo", "Japan", 1118370, "Town", none⟩] "tokyo" 3).2.2.2.1
  · exact (searchWoeid_limits ⟨none, 0, .error ()⟩ "" (some 2000)
      [⟨"Tokyo", "Japan", 1118370, "Town", none⟩] "tokyo"
      (max 1 (min ((some (2000 : Int)).getD 10) 100))).2.2.2.2 rfl

/-! ### C3 — WOEID scoring and ranking -/

theorem foldl_add_map (f : String → Int) (l : List String) :
    ∀ base : Int, l.foldl (fun s t => s + f t) base = base + (l.map f).sum := by
  induction l with
  | nil => intro base; simp
  | cons t rest ih =>
    intro base
    simp only [List.foldl_cons, List.map_cons, List.sum_cons, ih]
    ring

theorem scoreRecord_eq_spec (r : WoeidRecord) (qn : String) (qt : List String) :
    scoreRecord r qn qt = scoreSpec r qn qt := by
  simp only [scoreRecord, scoreSpec]
  rw [foldl_add_map]
  simp only [List.sum_cons, List.sum_nil]
  ring

theorem scoredLE_iff {a b : ScoredRecord} : scoredLE a b = true ↔ scoredRel a b := by
  unfold scoredLE scoredRel
  by_cases h1 : b.score < a.score
  · simp [h1]
  · rw [if_neg h1]
    by_cases h2 : a.score = b.score
    · rw [if_pos h2]
      simp [h1, h2]
    · rw [if_neg h2]
      simp [h1, h2]

theorem scoredLE_total (a b : ScoredRecord) : scoredLE a b = true ∨ scoredLE b a = true := by
  rw [scoredLE_iff, scoredLE_iff]
  unfold scoredRel
  rcases lt_trichotomy a.score b.score with h | h | h
  · right; left; exact h
  · rcases le_total a.record.placeName b.record.placeName with hle | hle
    · left; right; exact ⟨h, hle⟩
    · right; right; exact ⟨h.symm, hle⟩
  · left; left; exact h

theorem scoredRel_trans {a b c : ScoredRecord} (h1 : scoredRel a b) (h2 : scoredRel b c) :
    scoredRel a c := by
  unfold scoredRel at h1 h2 ⊢
  rcases h1 with h1 | ⟨h1, h1n⟩ <;> rcases h2 with h2 | ⟨h2, h2n⟩
  · left; omega
  · left; omega
  · left; omega
  · right; exact ⟨by omega, le_trans h1n h2n⟩

theorem mem_stableInsert (a x : ScoredRecord) :
    ∀ l : List ScoredRecord, x ∈ stableInsert scoredLE a l ↔ x = a ∨ x ∈ l := by
  intro l
  induction l with
  | nil => simp [stableInsert]
  | cons b rest ih =>
    simp only [stableInsert]
    by_cases h : scoredLE b a = true
    · rw [if_pos h]
      simp only [List.mem_cons, ih]
      tauto
    · rw [if_neg h]
      simp only [List.mem_cons]

theorem stableInsert_pairwise (a : ScoredRecord) :
    ∀ l : List ScoredRecord, l.Pairwise scoredRel →
      (stableInsert scoredLE a l).Pairwise scoredRel := by
  intro l
  induction l with
  | nil => intro _; simp [stableInsert]
  | cons b rest ih =>
    intro hp
    rw [List.pairwise_cons] at hp
    obtain ⟨hb, hrest⟩ := hp
    simp only [stableInsert]
    by_cases h : scoredLE b a = true
    · rw [if_pos h, List.pairwise_cons]
      refine ⟨fun y hy => ?_, ih hrest⟩
      rcases (mem_stableInsert a y rest).mp hy with rfl | hy'
      · exact scoredLE_iff.mp h
      · exact hb y hy'
    · rw [if_neg h, List.pairwise_cons]
      have hab : scoredRel a b := by
        rcases scoredLE_total a b with ht | ht
        · exact scoredLE_iff.mp ht
        · exact absurd ht h
      refine ⟨fun y hy => ?_, List.pairwise_cons.mpr ⟨hb, hrest⟩⟩
      rcases List.mem_cons.mp hy with rfl | hy'
      · exact hab
      · exact scoredRel_trans hab (hb y hy')

theorem stableSort_pairwise_aux :
    ∀ (l acc : List ScoredRecord), acc.Pairwise scoredRel →
      (l.foldl (fun acc x => stableInsert scoredLE x acc) acc).Pairwise scoredRel := by
  intro l
  induction l with
  | nil => intro acc h; exact h
  | cons x rest ih =>
    intro acc h
    simp only [List.foldl_cons]
    exact ih _ (stableInsert_pairwise x acc h)

theorem stableSort_pairwise (l : List ScoredRecord) :
    (stableSort scoredLE l).Pairwise scoredRel :=
  stableSort_pairwise_aux l [] (by simp)

theorem mem_stableSort_aux :
    ∀ (l acc : List ScoredRecord) (x : ScoredRecord),
      x ∈ l.foldl (fun acc x => stableInsert scoredLE x acc) acc ↔ x ∈ acc ∨ x ∈ l := by
  intro l
  induction l with
  | nil => intro acc x; simp
  | cons y rest ih =>
    intro acc x
    simp only [List.foldl_cons]
    rw [ih, mem_stableInsert]
    simp only [List.mem_cons]
    tauto

theorem mem_stableSort (l : List ScoredRecord) (x : ScoredRecord) :
    x ∈ stableSort scoredLE l ↔ x ∈ l := by
  unfold stableSort
  rw [mem_stableSort_aux]
  simp

theorem searchCore_pairwise (index : List WoeidRecord) (qn : String) (limit : Int) :
    (searchCore index qn limit).Pairwise scoredRel := by
  unfold searchCore
  exact List.Pairwise.sublist (List.take_sublist _ _) (stableSort_pairwise _)

theorem mem_searchCore {index : List WoeidRecord} {qn : String} {limit : Int}
    {x : ScoredRecord} (hx : x ∈ searchCore index qn limit) :
    0 < x.score ∧ x.record ∈ index ∧ x.score = scoreRecord x.record qn (searchTokens qn) := by
  unfold searchCore at hx
  have hx1 := List.mem_of_mem_take hx
  rw [mem_stableSort, List.mem_filter] at hx1
  obtain ⟨hmem, hpos⟩ := hx1
  rw [List.mem_map] at hmem
  obtain ⟨r, hr, hxr⟩ := hmem
  subst hxr
  simp only [decide_eq_true_eq] at hpos
  exact ⟨hpos, hr, rfl⟩

theorem jsSplitChar_ne_nil (sep : Char) : ∀ l : List Char, jsSplitChar sep l ≠ [] := by
  intro l
  induction l with
  | nil => simp [jsSplitChar]
  | cons c rest ih =>
    simp only [jsSplitChar]
    by_cases hc : c = sep
    · rw [if_pos hc]; simp
    · rw [if_neg hc]
      rcases h : jsSplitChar sep rest with _ | ⟨s, ss⟩
      · simp
      · simp

theorem jsSplitChar_parts (sep : Char) :
    ∀ l : List Char,
      (∀ p ∈ jsSplitChar sep l, p <:+: l) ∧ (jsSplitChar sep l).headD [] <+: l := by
  intro l
  induction l with
  | nil =>
    refine ⟨fun p hp => ?_, by simp [jsSplitChar]⟩
    simp [jsSplitChar] at hp
    subst hp
    exact List.infix_rfl
  | cons c rest ih =>
    by_cases hc : c = sep
    · simp only [jsSplitChar, if_pos hc]
      refine ⟨fun p hp => ?_, by simp⟩
      rcases List.mem_cons.mp hp with rfl | hp'
      · exact List.nil_prefix.isInfix
      · exact List.infix_cons (ih.1 p hp')
    · rcases hsplit : jsSplitChar sep rest with _ | ⟨s, ss⟩
      · exact absurd hsplit (jsSplitChar_ne_nil sep rest)
      · simp only [jsSplitChar, if_neg hc, hsplit]
        have hs_prefix : s <+: rest := by
          have h2 := ih.2
          rw [hsplit] at h2
          simpa using h2
        obtain ⟨t, ht⟩ := hs_prefix
        refine ⟨fun p hp => ?_, ⟨t, by simp [ht]⟩⟩
        rcases List.mem_cons.mp hp with rfl | hp'
        · have hpre : c :: s <+: c :: rest := ⟨t, by simp [ht]⟩
          exact hpre.isInfix
        · refine List.infix_cons (ih.1 p ?_)
          rw [hsplit]
          exact List.mem_cons_of_mem s hp'

theorem containsL_of_infix {p : List Char} :
    ∀ {l : List Char}, p <:+: l → containsL p l = true := by
  intro l
  induction l with
  | nil =>
    intro h
    rw [List.infix_nil] at h
    subst h
    rfl
  | cons c rest ih =>
    intro h
    rw [List.infix_cons_iff] at h
    simp only [containsL]
    rcases h with h | h
    · simp [List.isPrefixOf_iff_prefix, h]
    · simp [ih h]

theorem searchTokens_contains (qn : String) :
    ∀ t ∈ searchTokens qn, strContains qn t = true := by
  intro t ht
  unfold searchTokens at ht
  rw [List.mem_filter] at ht
  obtain ⟨hmem, _⟩ := ht
  rw [List.mem_map] at hmem
  obtain ⟨p, hp, rfl⟩ := hmem
  unfold strContains
  rw [data_mk]
  exact containsL_of_infix ((jsSplitChar_parts ' ' qn.data).1 p hp)

theorem tokenScore_sum_nonneg (place country : String) (qt : List String) :
    0 ≤ (qt.map (fun token => if strContains place token then (24 : Int)
      else if strContains country token then 12 else 0)).sum := by
  apply List.sum_nonneg
  intro x hx
  rw [List.mem_map] at hx
  obtain ⟨t, _, rfl⟩ := hx
  split_ifs <;> omega

theorem tokenScore_sum_le (place country : String) (qt : List String) :
    (qt.map (fun token => if strContains place token then (24 : Int)
      else if strContains country token then 12 else 0)).sum ≤ 24 * qt.length := by
  induction qt with
  | nil => simp
  | cons t rest ih =>
    simp only [List.map_cons, List.sum_cons, List.length_cons]
    have hb : (if strContains place t then (24 : Int)
        else if strContains country t then 12 else 0) ≤ 24 := by
      split_ifs <;> omega
    push_cast
    push_cast at ih
    omega

theorem tokenScore_sum_exact (place country : String) (qt : List String)
    (h : ∀ t ∈ qt, strContains place t = true) :
    (qt.map (fun token => if strContains place token then (24 : Int)
      else if strContains country token then 12 else 0)).sum = 24 * qt.length := by
  induction qt with
  | nil => simp
  | cons t rest ih =>
    simp only [List.map_cons, List.sum_cons, List.length_cons]
    rw [if_pos (h t (List.mem_cons_self t rest))]
    rw [ih (fun t' ht' => h t' (List.mem_cons_of_mem t ht'))]
    push_cast
    ring

theorem strStartsWith_refl (s : String) : strStartsWith s s = true := by
  unfold strStartsWith
  exact List.isPrefixOf_iff_prefix.mpr (List.prefix_refl _)

theorem strContains_refl (s : String) : strContains s s = true :=
  containsL_of_infix List.infix_rfl

theorem scoreRecord_exact_ge (r : WoeidRecord) (qn : String)
    (h : normalizeText r.placeName = qn) :
    400 + 24 * ((searchTokens qn).length : Int) ≤ scoreRecord r qn (searchTokens qn) := by
  rw [scoreRecord_eq_spec]
  simp only [scoreSpec]
  rw [h]
  rw [if_pos rfl]
  rw [if_pos (strStartsWith_refl qn), if_pos (strContains_refl qn)]
  rw [tokenScore_sum_exact qn (normalizeText r.country) _ (searchTokens_contains qn)]
  simp only [List.sum_cons, List.sum_nil]
  split_ifs <;> omega

theorem scoreRecord_subOnly_le (r : WoeidRecord) (qn : String) (qt : List String)
    (h : subOnlyMatch r qn) :
    scoreRecord r qn qt ≤ 140 + 24 * (qt.length : Int) := by
  obtain ⟨hc, hne, hsw, hcne, hcsw⟩ := h
  rw [scoreRecord_eq_spec]
  simp only [scoreSpec]
  rw [if_neg hne, if_neg hcne, hsw, hcsw]
  have htok := tokenScore_sum_le (normalizeText r.placeName) (normalizeText r.country) qt
  simp only [List.sum_cons, List.sum_nil, if_false, Bool.false_eq_true]
  split_ifs <;> omega

/-- C3: the WOEID score is additive over the spec's components after
normalization (`scoreRecord` equals the spec's component sum); `searchWoeid`'s
result list is ordered by strictly descending score with ties broken by
place-name order; every returned entry has a positive score computed by
`scoreRecord` over a record of the index; a record whose normalized place
name equals the normalized query scores at least 200; and such a record is
ranked strictly above every record that matches only as a substring. -/
theorem searchWoeid_scoring (index : List WoeidRecord) (qn : String) (limit : Int) :
    (∀ (r : WoeidRecord) (qt : List String), scoreRecord r qn qt = scoreSpec r qn qt) ∧
    (searchCore index qn limit).Pairwise scoredRel ∧
    (∀ x ∈ searchCore index qn limit,
      0 < x.score ∧ x.record ∈ index ∧ x.score = scoreRecord x.record qn (searchTokens qn)) ∧
    (∀ r : WoeidRecord, normalizeText r.placeName = qn →
      200 ≤ scoreRecord r qn (searchTokens qn)) ∧
    (∀ (i j : Nat) (hi : i < (searchCore index qn limit).length)
        (hj : j < (searchCore index qn limit).length),
      normalizeText ((searchCore index qn limit)[i].record.placeName) = qn →
      subOnlyMatch ((searchCore index qn limit)[j].record) qn →
      i < j) := by
  refine ⟨fun r qt => scoreRecord_eq_spec r qn qt, searchCore_pairwise index qn limit,
    fun x hx => mem_searchCore hx, fun r h => ?_, fun i j hi hj hex hsub => ?_⟩
  · have h1 := scoreRecord_exact_ge r qn h
    have h2 : (0 : Int) ≤ 24 * ((searchTokens qn).length : Int) := by positivity
    omega
  · have hpw := searchCore_pairwise index qn limit
    have hxi := mem_searchCore (List.getElem_mem hi)
    have hxj := mem_searchCore (List.getElem_mem hj)
    have hsi : 400 + 24 * ((searchTokens qn).length : Int) ≤
        (searchCore index qn limit)[i].score := by
      rw [hxi.2.2]
      exact scoreRecord_exact_ge _ qn hex
    have hsj : (searchCore index qn limit)[j].score ≤
        140 + 24 * ((searchTokens qn).length : Int) := by
      rw [hxj.2.2]
      exact scoreRecord_subOnly_le _ qn _ hsub
    by_contra hij
    rcases Nat.lt_or_ge j i with hji | hji
    · have hrel := (List.pairwise_iff_getElem.mp hpw) j i hj hi hji
      unfold scoredRel at hrel
      rcases hrel with h' | ⟨h', _⟩ <;> omega
    · have : i = j := by omega
      subst this
      omega

/-- Witness for C3: in an index holding `"São Paulo"` and the
substring-matcher `"East São Paulo"`, the query `"sao paulo"` gives the
exact record a score of at least 200 and ranks it (position 0) above the
substring match (position 1). -/
theorem searchWoeid_scoring_witness :
    200 ≤ scoreRecord ⟨"São Paulo", "Brazil", 455827, "Town", none⟩ "sao paulo"
      (searchTokens "sao paulo") ∧ (0 : Nat) < 1 := by
  have h := searchWoeid_scoring
    [⟨"São Paulo", "Brazil", 455827, "Town", none⟩,
     ⟨"East São Paulo", "Brazil", 1, "Town", none⟩] "sao paulo" 10
  refine ⟨h.2.2.2.1 ⟨"São Paulo", "Brazil", 455827, "Town", none⟩ (by decide), ?_⟩
  exact h.2.2.2.2 0 1 (by decide) (by decide) (by decide) (by decide)

/-! ### C5 — the inferred `users` command -/

theorem dedupeGo_spec :
    ∀ (fuel : Nat) (l : List String), l.length ≤ fuel →
      List.Sublist (dedupeGo fuel l) l ∧ (dedupeGo fuel l).Nodup := by
  intro fuel
  induction fuel with
  | zero =>
    intro l h
    have hl : l = [] := List.length_eq_zero.mp (by omega)
    subst hl
    exact ⟨List.Sublist.refl _, List.nodup_nil⟩
  | succ f ih =>
    intro l h
    cases l with
    | nil => exact ⟨List.Sublist.refl _, List.nodup_nil⟩
    | cons x rest =>
      simp only [dedupeGo]
      have hlen : (rest.filter (fun y => y ≠ x)).length ≤ f := by
        have := rest.length_filter_le (fun y => y ≠ x)
        simp only [List.length_cons] at h
        omega
      obtain ⟨hsub, hnd⟩ := ih _ hlen
      constructor
      · exact (hsub.trans (List.filter_sublist _)).cons₂ x
      · refine List.nodup_cons.mpr ⟨?_, hnd⟩
        intro hx
        have hx' := hsub.subset hx
        rw [List.mem_filter] at hx'
        simp at hx'

theorem dedupe_spec (l : List String) : List.Sublist (dedupe l) l ∧ (dedupe l).Nodup :=
  dedupeGo_spec l.length l (le_refl _)

/-- C5: classifying the raw inputs of the inferred `users` command.  If any
input is invalid, every invalid entry is reported, the exit code is 1 and no
network call happens.  Otherwise ids and usernames are each deduplicated by
first occurrence (order-preserving and duplicate-free); a group of more than
100 distinct values aborts with the `ConfigError` message naming the group
and its count — ids checked first — before any network call; in particular
101 distinct usernames yield the message naming "usernames" and 101.  When
both groups fit, the command proceeds to the lookups. -/
theorem runUsersInferred_contract (args : List String) :
    ((args.map parseUserInput).filter (fun p => p.isInvalid) ≠ [] →
      runUsersInferred args =
        .invalidInputs (((args.map parseUserInput).filter (fun p => p.isInvalid)).map
          (fun p => match p with
            | .invalid source reason => (source, reason)
            | _ => ("", ""))) ∧
      (runUsersInferred args).exitCode = some 1 ∧
      (runUsersInferred args).callsNetwork = false) ∧
    (∀ l : List String, List.Sublist (dedupe l) l ∧ (dedupe l).Nodup) ∧
    ((args.map parseUserInput).filter (fun p => p.isInvalid) = [] →
      ¬(dedupe ((args.map parseUserInput).filterMap (fun p => match p with
          | .id v _ => some v
          | _ => none)) = [] ∧
        dedupe ((args.map parseUserInput).filterMap (fun p => match p with
          | .username v _ => some v
          | _ => none)) = []) →
      (let ids := dedupe ((args.map parseUserInput).filterMap (fun p => match p with
          | .id v _ => some v
          | _ => none))
       let usernames := dedupe ((args.map parseUserInput).filterMap (fun p => match p with
          | .username v _ => some v
          | _ => none))
       (100 < ids.length →
         runUsersInferred args = .configError (atMost100Message "users IDs" ids.length) ∧
         (runUsersInferred args).callsNetwork = false) ∧
       (ids.length ≤ 100 → 100 < usernames.length →
         runUsersInferred args =
           .configError (atMost100Message "users usernames" usernames.length) ∧
         (runUsersInferred args).callsNetwork = false) ∧
       (ids.length ≤ 100 → usernames.length ≤ 100 →
         runUsersInferred args = .proceed ids usernames))) ∧
    atMost100Message "users usernames" 101 =
      "users usernames accepts at most 100 values per request. Got: 101." := by
  refine ⟨fun hinv => ?_, dedupe_spec, fun hval hne => ?_, rfl⟩
  · have hout : runUsersInferred args =
        .invalidInputs (((args.map parseUserInput).filter (fun p => p.isInvalid)).map
          (fun p => match p with
            | .invalid source reason => (source, reason)
            | _ => ("", ""))) := by
      unfold runUsersInferred
      rw [if_pos (by simpa [List.isEmpty_iff] using hinv)]
    exact ⟨hout, by rw [hout]; rfl, by rw [hout]; rfl⟩
  · simp only
    have hstep : runUsersInferred args =
        (let ids := dedupe ((args.map parseUserInput).filterMap (fun p => match p with
            | .id v _ => some v
            | _ => none))
         let usernames := dedupe ((args.map parseUserInput).filterMap (fun p => match p with
            | .username v _ => some v
            | _ => none))
         if ids.isEmpty ∧ usernames.isEmpty then .noValidInputs
         else if ids.length > 100 then .configError (atMost100Message "users IDs" ids.length)
         else if usernames.length > 100 then
           .configError (atMost100Message "users usernames" usernames.length)
         else .proceed ids usernames) := by
      unfold runUsersInferred
      rw [if_neg (by simp [hval])]
    simp only at hstep
    refine ⟨fun hids => ?_, fun hids husers => ?_, fun hids husers => ?_⟩
    · have hout : runUsersInferred args = .configError (atMost100Message "users IDs"
          (dedupe ((args.map parseUserInput).filterMap (fun p => match p with
            | .id v _ => some v
            | _ => none))).length) := by
        rw [hstep]
        rw [if_neg (by simpa [List.isEmpty_iff] using hne)]
        rw [if_pos (by omega)]
      exact ⟨hout, by rw [hout]; rfl⟩
    · have hout : runUsersInferred args = .configError (atMost100Message "users usernames"
          (dedupe ((args.map parseUserInput).filterMap (fun p => match p with
            | .username v _ => some v
            | _ => none))).length) := by
        rw [hstep]
        rw [if_neg (by simpa [List.isEmpty_iff] using hne)]
        rw [if_neg (by omega), if_pos (by omega)]
      exact ⟨hout, by rw [hout]; rfl⟩
    · rw [hstep]
      rw [if_neg (by simpa [List.isEmpty_iff] using hne)]
      rw [if_neg (by omega), if_neg (by omega)]

set_option maxRecDepth 40000 in
/-- Witness for C5: 101 distinct usernames produce the fatal configuration
error naming "usernames" and the count 101, with no network call; two bad
inputs are both reported with exit code 1 and no network call. -/
theorem runUsersInferred_contract_witness :
    runUsersInferred ((List.range 101).map (fun i => "u" ++ toString i)) =
      .configError "users usernames accepts at most 100 values per request. Got: 101." ∧
    (runUsersInferred ((List.range 101).map (fun i => "u" ++ toString i))).callsNetwork =
      false ∧
    runUsersInferred ["bad input!", "@alice", "also bad!"] =
      .invalidInputs
        [("bad input!", "Expected an ID, username, or x.com/twitter.com URL."),
         ("also bad!", "Expected an ID, username, or x.com/twitter.com URL.")] ∧
    (runUsersInferred ["bad input!", "@alice", "also bad!"]).exitCode = some 1 := by
  have h := runUsersInferred_contract ((List.range 101).map (fun i => "u" ++ toString i))
  have h101 := (h.2.2.1 (by decide) (by decide)).2.1 (by decide) (by decide)
  have hbad := (runUsersInferred_contract ["bad input!", "@alice", "also bad!"]).1 (by decide)
  refine ⟨?_, h101.2, hbad.1, hbad.2.1⟩
  rw [h101.1]
  decide

/-! ### C6 — status-URL classification -/

theorem takeWhile_all {p : Char → Bool} :
    ∀ {A : List Char}, (∀ c ∈ A, p c = true) → A.takeWhile p = A := by
  intro A
  induction A with
  | nil => intro _; rfl
  | cons c rest ih =>
    intro h
    rw [List.takeWhile_cons, if_pos (h c (List.mem_cons_self c rest))]
    rw [ih (fun x hx => h x (List.mem_cons_of_mem c hx))]

theorem takeWhile_append_all {p : Char → Bool} :
    ∀ {A B : List Char}, (∀ c ∈ A, p c = true) →
      (A ++ B).takeWhile p = A ++ B.takeWhile p := by
  intro A B
  induction A with
  | nil => intro _; rfl
  | cons c rest ih =>
    intro h
    rw [List.cons_append, List.takeWhile_cons, if_pos (h c (List.mem_cons_self c rest))]
    rw [ih (fun x hx => h x (List.mem_cons_of_mem c hx))]
    simp

theorem takeWhile_append_stop {p : Char → Bool} {A B : List Char} {c : Char}
    (hA : ∀ x ∈ A, p x = true) (hc : p c = false) :
    (A ++ c :: B).takeWhile p = A := by
  rw [takeWhile_append_all hA, List.takeWhile_cons, if_neg (by simp [hc])]
  simp

theorem dropWhile_all_false {p : Char → Bool} :
    ∀ {A : List Char}, (∀ c ∈ A, p c = false) → A.dropWhile p = A := by
  intro A
  induction A with
  | nil => intro _; rfl
  | cons c rest _ =>
    intro h
    rw [List.dropWhile_cons, if_neg (by simp [h c (List.mem_cons_self c rest)])]

theorem jsTrimL_eq_self {A : List Char} (h : ∀ c ∈ A, isWs c = false) : jsTrimL A = A := by
  unfold jsTrimL
  rw [dropWhile_all_false h]
  rw [dropWhile_all_false (fun c hc => h c (List.mem_reverse.mp hc))]
  exact List.reverse_reverse A

theorem foldl_hostport {A : List Char} (h : '@' ∉ A) :
    ∀ acc, A.foldl (fun acc c => if c = '@' then [] else acc ++ [c]) acc = acc ++ A := by
  induction A with
  | nil => intro acc; simp
  | cons c rest ih =>
    intro acc
    simp only [List.foldl_cons]
    rw [if_neg (by intro hc; exact h (by rw [← hc]; exact List.mem_cons_self c rest))]
    rw [ih (fun hc => h (List.mem_cons_of_mem c hc))]
    simp

theorem jsSplitChar_sepfree {sep : Char} :
    ∀ {A : List Char}, (∀ c ∈ A, c ≠ sep) → jsSplitChar sep A = [A] := by
  intro A
  induction A with
  | nil => intro _; rfl
  | cons c rest ih =>
    intro h
    simp only [jsSplitChar]
    rw [if_neg (h c (List.mem_cons_self c rest))]
    rw [ih (fun x hx => h x (List.mem_cons_of_mem c hx))]

theorem jsSplitChar_append_sep {sep : Char} :
    ∀ {A B : List Char}, (∀ c ∈ A, c ≠ sep) →
      jsSplitChar sep (A ++ sep :: B) = A :: jsSplitChar sep B := by
  intro A B
  induction A with
  | nil =>
    intro _
    simp [jsSplitChar]
  | cons c rest ih =>
    intro h
    simp only [List.cons_append, jsSplitChar, List.append_eq]
    rw [if_neg (h c (List.mem_cons_self c rest))]
    rw [ih (fun x hx => h x (List.mem_cons_of_mem c hx))]

theorem decodeURIComponentL_eq_self :
    ∀ {A : List Char}, (∀ c ∈ A, c ≠ '%') → decodeURIComponentL A = A := by
  intro A
  induction A with
  | nil => intro _; rfl
  | cons c rest ih =>
    intro h
    have hc : c ≠ '%' := h c (List.mem_cons_self c rest)
    have hrest : decodeURIComponentL rest = rest :=
      ih (fun x hx => h x (List.mem_cons_of_mem c hx))
    conv_lhs => rw [decodeURIComponentL.eq_def]
    simp only [if_neg hc]
    rw [hrest]

theorem isLikelyUsername_facts {u : String} (h : isLikelyUsername u = true) :
    u.data ≠ [] ∧ ∀ c ∈ u.data, isUsernameChar c = true := by
  unfold isLikelyUsername at h
  simp only [Bool.and_eq_true, decide_eq_true_eq, List.all_eq_true] at h
  obtain ⟨⟨h1, _⟩, h3⟩ := h
  refine ⟨?_, h3⟩
  cases hu : u.data with
  | nil => rw [hu] at h1; simp at h1
  | cons a as => simp

theorem usernameChar_props {c : Char} (h : isUsernameChar c = true) :
    c ≠ '/' ∧ c ≠ '?' ∧ c ≠ '#' ∧ c ≠ '%' ∧ c ≠ '@' ∧ c ≠ ':' ∧ isWs c = false := by
  refine ⟨?_, ?_, ?_, ?_, ?_, ?_, ?_⟩
  · rintro rfl; exact absurd h (by decide)
  · rintro rfl; exact absurd h (by decide)
  · rintro rfl; exact absurd h (by decide)
  · rintro rfl; exact absurd h (by decide)
  · rintro rfl; exact absurd h (by decide)
  · rintro rfl; exact absurd h (by decide)
  · by_cases hw : isWs c = true
    · unfold isWs Char.isWhitespace at hw
      simp only [Bool.or_eq_true, decide_eq_true_eq] at hw
      rcases hw with ((rfl | rfl) | rfl) | rfl <;> exact absurd h (by decide)
    · simpa using hw

theorem digitChar_props {c : Char} (h : c.isDigit = true) :
    c ≠ '/' ∧ c ≠ '?' ∧ c ≠ '#' ∧ isWs c = false := by
  refine ⟨?_, ?_, ?_, ?_⟩
  · rintro rfl; exact absurd h (by decide)
  · rintro rfl; exact absurd h (by decide)
  · rintro rfl; exact absurd h (by decide)
  · by_cases hw : isWs c = true
    · unfold isWs Char.isWhitespace at hw
      simp only [Bool.or_eq_true, decide_eq_true_eq] at hw
      rcases hw with ((rfl | rfl) | rfl) | rfl <;> exact absurd h (by decide)
    · simpa using hw

theorem findStatusId_cons_skip {c : Char} {l : List Char} (h : statusCond (c :: l) = false) :
    findStatusId (c :: l) = findStatusId l := by
  simp [findStatusId, h]

theorem statusCond_head {c : Char} {l : List Char} (h : c ≠ '/') :
    statusCond (c :: l) = false := by
  unfold statusCond
  rw [show statusPat = '/' :: "status/".data from rfl]
  rw [List.isPrefixOf_cons₂]
  have : (('/' : Char) == c) = false := by
    simp [Ne.symm h]
  rw [this]
  simp

theorem statusCond_second {c : Char} {l : List Char} (h : c ≠ 's') :
    statusCond ('/' :: c :: l) = false := by
  unfold statusCond
  rw [show statusPat = '/' :: 's' :: "tatus/".data from rfl]
  rw [List.isPrefixOf_cons₂, List.isPrefixOf_cons₂]
  have : (('s' : Char) == c) = false := by
    simp [Ne.symm h]
  rw [this]
  simp

theorem findStatusId_skip_noslash {A : List Char} (h : ∀ c ∈ A, c ≠ '/') (l : List Char) :
    findStatusId (A ++ l) = findStatusId l := by
  induction A with
  | nil => rfl
  | cons c rest ih =>
    rw [List.cons_append,
      findStatusId_cons_skip (statusCond_head (h c (List.mem_cons_self c rest))),
      ih (fun x hx => h x (List.mem_cons_of_mem c hx))]

theorem findStatusId_final {D : List Char} (h1 : D ≠ []) (h2 : ∀ c ∈ D, c.isDigit = true) :
    findStatusId ("/status/".data ++ D) = some ⟨D⟩ := by
  rw [show "/status/".data ++ D = '/' :: ("status/".data ++ D) from rfl]
  have hcond : statusCond ('/' :: ("status/".data ++ D)) = true := by
    unfold statusCond
    have hpre : statusPat.isPrefixOf ('/' :: ("status/".data ++ D)) = true := by
      apply List.isPrefixOf_iff_prefix.mpr
      exact ⟨D, rfl⟩
    rw [hpre]
    have hdrop : ('/' :: ("status/".data ++ D)).drop 8 = D := by
      rw [show ('/' :: ("status/".data ++ D)) = "/status/".data ++ D from rfl,
        show (8 : Nat) = "/status/".data.length from rfl]
      exact List.drop_left _ _
    rw [hdrop]
    cases D with
    | nil => exact absurd rfl h1
    | cons d rest =>
      simp only [List.headD_cons, Bool.true_and]
      exact h2 d (List.mem_cons_self d rest)
  simp only [findStatusId, hcond, if_true]
  have hdrop : ('/' :: ("status/".data ++ D)).drop 8 = D := by
    rw [show ('/' :: ("status/".data ++ D)) = "/status/".data ++ D from rfl,
      show (8 : Nat) = "/status/".data.length from rfl]
    exact List.drop_left _ _
  rw [hdrop, takeWhile_all h2]

theorem status_not_prefix {U tail : List Char} (hU : ∀ c ∈ U, isUsernameChar c = true)
    (hne : U ≠ "status".data) :
    "status/".data.isPrefixOf (U ++ '/' :: tail) = false := by
  by_contra hb
  rw [Bool.not_eq_false] at hb
  obtain ⟨t, ht⟩ := List.isPrefixOf_iff_prefix.mp hb
  rcases Nat.lt_trichotomy U.length 6 with hl | hl | hl
  · have e := congrArg (fun l => l[U.length]?) ht
    simp only at e
    rw [List.getElem?_append_left (by rw [show ("status/".data).length = 7 from rfl]; omega),
      List.getElem?_append_right (le_refl _)] at e
    simp only [Nat.sub_self, List.getElem?_cons_zero] at e
    have : ("status/".data)[U.length]? ≠ some '/' := by
      interval_cases h : U.length <;> decide
    exact this e
  · apply hne
    have e := congrArg (fun l => l.take 6) ht
    simp only at e
    rw [show (['s', 't', 'a', 't', 'u', 's', '/'] : List Char) =
      ['s', 't', 'a', 't', 'u', 's'] ++ ['/'] from rfl, List.append_assoc,
      List.take_left' (by rfl)] at e
    rw [← hl, List.take_left] at e
    exact e.symm
  · have e := congrArg (fun l => l[6]?) ht
    simp only at e
    rw [List.getElem?_append_left (by rw [show ("status/".data).length = 7 from rfl]; omega),
      List.getElem?_append_left hl] at e
    have h6 : ("status/".data)[6]? = some '/' := by decide
    rw [h6] at e
    have : ('/' : Char) ∈ U := List.getElem?_mem e.symm
    exact absurd (hU '/' this) (by decide)

theorem statusCond_at_user {U D : List Char} (hU : ∀ c ∈ U, isUsernameChar c = true) :
    statusCond ('/' :: (U ++ "/status/".data ++ D)) = false := by
  by_cases hU6 : U = "status".data
  · subst hU6
    unfold statusCond
    rw [show ('/' :: ("status".data ++ "/status/".data ++ D)).drop 8 =
      "status/".data ++ D from rfl]
    rw [show ("status/".data ++ D).headD 'x' = 's' from rfl]
    simp
  · unfold statusCond
    have hpre : statusPat.isPrefixOf ('/' :: (U ++ "/status/".data ++ D)) = false := by
      rw [show statusPat = '/' :: "status/".data from rfl]
      rw [List.isPrefixOf_cons₂]
      rw [show (U ++ "/status/".data ++ D) = U ++ '/' :: ("status/".data ++ D) by
        simp [List.append_assoc]]
      rw [ status_not_prefix hU hU6]
      simp
    rw [hpre]
    simp

theorem string_ext {s t : String} (h : s.data = t.data) : s = t := by
  cases s with
  | mk d1 => cases t with
    | mk d2 => exact congrArg String.mk h

theorem normalizeHost_inv {host h0 : String} (hh : normalizeHost host = h0) :
    jsToLower host = h0 ∨ (jsToLower host).data = 'w' :: 'w' :: 'w' :: '.' :: h0.data := by
  unfold normalizeHost at hh
  by_cases hp : ("www.".data.isPrefixOf (jsToLower host).data) = true
  · right
    rw [if_pos hp] at hh
    obtain ⟨t, ht⟩ := List.isPrefixOf_iff_prefix.mp hp
    have hdrop : (jsToLower host).data.drop 4 = t := by
      rw [← ht, show (4 : Nat) = "www.".data.length from rfl]
      exact List.drop_left _ _
    have hdata : h0.data = t := by
      rw [← hh, data_mk, hdrop]
    rw [← ht, hdata]
    rfl
  · left
    rw [if_neg hp] at hh
    exact hh

theorem normalizeUsername_eq_self {u : String}
    (h : ∀ c ∈ u.data, isUsernameChar c = true) : normalizeUsername u = u := by
  unfold normalizeUsername
  split
  · next rest heq =>
    have hat := h '@' (by rw [heq]; exact List.mem_cons_self _ _)
    exact absurd hat (by decide)
  · rfl

theorem parseUrlM_status (host user digits : String)
    (hH1 : host.data ≠ [])
    (hH2 : ∀ c ∈ host.data, c ≠ '/' ∧ c ≠ '?' ∧ c ≠ '#' ∧ c ≠ ':' ∧ c ≠ '@')
    (huser : isLikelyUsername user = true)
    (hd2 : ∀ c ∈ digits.data, c.isDigit = true) :
    parseUrlM ("https://" ++ host ++ "/" ++ user ++ "/status/" ++ digits) =
      some ⟨jsToLower host, ⟨'/' :: (user.data ++ ("/status/".data ++ digits.data))⟩⟩ := by
  have hU2 := (isLikelyUsername_facts huser).2
  have hurl : ("https://" ++ host ++ "/" ++ user ++ "/status/" ++ digits).data =
      "https://".data ++ (host.data ++ ('/' :: (user.data ++ ("/status/".data ++ digits.data)))) := by
    simp [List.append_assoc]
  have hauthP : ∀ x ∈ host.data, (x != '/' && x != '?' && x != '#') = true := by
    intro x hx
    obtain ⟨h1, h2, h3, _, _⟩ := hH2 x hx
    simp [h1, h2, h3]
  have htailP : ∀ c ∈ '/' :: (user.data ++ ("/status/".data ++ digits.data)),
      (c != '?' && c != '#') = true := by
    intro c hc
    rcases List.mem_cons.mp hc with rfl | hc
    · decide
    rcases List.mem_append.mp hc with hc | hc
    · obtain ⟨_, h2, h3, _⟩ := usernameChar_props (hU2 c hc)
      simp [h2, h3]
    rcases List.mem_append.mp hc with hc | hc
    · fin_cases hc <;> decide
    · obtain ⟨_, h2, h3, _⟩ := digitChar_props (hd2 c hc)
      simp [h2, h3]
  have hdrop8 : ("https://".data ++ (host.data ++
      ('/' :: (user.data ++ ("/status/".data ++ digits.data))))).drop 8 =
      host.data ++ ('/' :: (user.data ++ ("/status/".data ++ digits.data))) := by
    rw [show (8 : Nat) = "https://".data.length from rfl]
    exact List.drop_left _ _
  have hauth : (host.data ++ ('/' :: (user.data ++ ("/status/".data ++ digits.data)))).takeWhile
      (fun c => c != '/' && c != '?' && c != '#') = host.data :=
    takeWhile_append_stop hauthP (by decide)
  have hfoldl := foldl_hostport (A := host.data)
    (fun hmem => ((hH2 '@' hmem).2.2.2.2) rfl) []
  have hhostname : host.data.takeWhile (fun c => c != ':') = host.data := by
    apply takeWhile_all
    intro c hc
    simp [(hH2 c hc).2.2.2.1]
  unfold parseUrlM
  rw [hurl]
  rw [if_pos (List.isPrefixOf_iff_prefix.mpr ⟨_, rfl⟩)]
  simp only [hdrop8, hauth]
  rw [if_neg (by simpa [List.isEmpty_iff] using hH1)]
  simp only [List.nil_append] at hfoldl
  simp only [hfoldl, hhostname]
  rw [if_neg (by simpa [List.isEmpty_iff] using hH1)]
  rw [List.drop_left]
  rw [takeWhile_all htailP]
  rw [if_neg (by simp)]

theorem pathSegments_status (user digits : String)
    (huser : isLikelyUsername user = true)
    (hd1 : digits.data ≠ []) (hd2 : ∀ c ∈ digits.data, c.isDigit = true) :
    pathSegments ⟨'/' :: (user.data ++ ("/status/".data ++ digits.data))⟩ =
      [user, "status", digits] := by
  obtain ⟨hU1, hU2⟩ := isLikelyUsername_facts huser
  unfold pathSegments
  rw [data_mk]
  have hsplit : jsSplitChar '/' ('/' :: (user.data ++ ("/status/".data ++ digits.data))) =
      [[], user.data, "status".data, digits.data] := by
    rw [show user.data ++ ("/status/".data ++ digits.data) =
      user.data ++ ('/' :: ("status".data ++ ('/' :: digits.data))) from rfl]
    simp only [jsSplitChar, if_pos rfl]
    rw [jsSplitChar_append_sep (fun c hc => (usernameChar_props (hU2 c hc)).1)]
    rw [show "status".data ++ ('/' :: digits.data) =
      "status".data ++ '/' :: digits.data from rfl]
    rw [jsSplitChar_append_sep (by intro c hc; fin_cases hc <;> decide)]
    rw [jsSplitChar_sepfree (fun c hc => (digitChar_props (hd2 c hc)).1)]
    simp
  rw [hsplit]
  simp only [List.map_cons, List.map_nil]
  rw [show jsTrimL [] = ([] : List Char) from rfl]
  rw [jsTrimL_eq_self (fun c hc => (usernameChar_props (hU2 c hc)).2.2.2.2.2.2)]
  rw [show jsTrimL "status".data = "status".data from by decide]
  rw [jsTrimL_eq_self (fun c hc => (digitChar_props (hd2 c hc)).2.2.2)]
  obtain ⟨uc, urest, hueq⟩ := List.exists_cons_of_ne_nil hU1
  obtain ⟨dc, drest, hdeq⟩ := List.exists_cons_of_ne_nil hd1
  rw [hueq, hdeq]
  simp only [List.filter, List.isEmpty_nil, List.isEmpty_cons, Bool.not_true, Bool.not_false]
  rw [← hueq, ← hdeq]
  rfl

theorem extractUser_status (user digits : String)
    (huser : isLikelyUsername user = true)
    (hd1 : digits.data ≠ []) (hd2 : ∀ c ∈ digits.data, c.isDigit = true) :
    extractUserFromStatusPath ⟨'/' :: (user.data ++ ("/status/".data ++ digits.data))⟩ =
      some user := by
  obtain ⟨hU1, hU2⟩ := isLikelyUsername_facts huser
  unfold extractUserFromStatusPath
  rw [pathSegments_status user digits huser hd1 hd2]
  rw [if_neg (by simp)]
  rw [if_neg (by simp)]
  have hdecode : decodeURIComponent user = user := by
    unfold decodeURIComponent
    rw [decodeURIComponentL_eq_self (fun c hc => (usernameChar_props (hU2 c hc)).2.2.2.1)]
  simp only [List.getD_cons_zero, hdecode]
  rw [normalizeUsername_eq_self hU2]
  rw [if_pos huser]

theorem extractPostId_status (host user digits : String)
    (hH1 : host.data ≠ [])
    (hH2 : ∀ c ∈ host.data, c ≠ '/' ∧ c ≠ '?' ∧ c ≠ '#' ∧ c ≠ ':' ∧ c ≠ '@')
    (hH3 : host.data.headD ' ' ≠ 's')
    (huser : isLikelyUsername user = true)
    (hd1 : digits.data ≠ []) (hd2 : ∀ c ∈ digits.data, c.isDigit = true) :
    extractPostId ("https://" ++ host ++ "/" ++ user ++ "/status/" ++ digits) = some digits := by
  obtain ⟨hU1, hU2⟩ := isLikelyUsername_facts huser
  unfold extractPostId
  have hurl : ("https://" ++ host ++ "/" ++ user ++ "/status/" ++ digits).data =
      "https:".data ++ ('/' :: '/' :: (host.data ++
        ('/' :: (user.data ++ ("/status/".data ++ digits.data))))) := by
    simp [List.append_assoc]
  rw [hurl]
  rw [findStatusId_skip_noslash (by intro c hc; fin_cases hc <;> decide)]
  rw [findStatusId_cons_skip (statusCond_second (by decide))]
  obtain ⟨hc, htl, heq⟩ := List.exists_cons_of_ne_nil hH1
  have hcs : hc ≠ 's' := by
    rw [heq] at hH3
    simpa using hH3
  rw [heq]
  rw [show ((hc :: htl) ++ ('/' :: (user.data ++ ("/status/".data ++ digits.data)))) =
    hc :: (htl ++ ('/' :: (user.data ++ ("/status/".data ++ digits.data)))) from rfl]
  rw [findStatusId_cons_skip (statusCond_second hcs)]
  rw [show hc :: (htl ++ ('/' :: (user.data ++ ("/status/".data ++ digits.data)))) =
    (hc :: htl) ++ ('/' :: (user.data ++ ("/status/".data ++ digits.data))) from rfl]
  rw [findStatusId_skip_noslash (by
    intro c hcm
    rw [← heq] at hcm
    exact (hH2 c hcm).1)]
  rw [findStatusId_cons_skip (by
    have h := statusCond_at_user (U := user.data) (D := digits.data) hU2
    rw [show user.data ++ "/status/".data ++ digits.data =
      user.data ++ ("/status/".data ++ digits.data) from List.append_assoc ..] at h
    exact h)]
  rw [findStatusId_skip_noslash (fun c hc => (usernameChar_props (hU2 c hc)).1)]
  rw [findStatusId_final hd1 hd2]

/-- C6: for every URL `https://<host>/<user>/status/<digits>` whose host
normalizes (case-insensitively, with an optional `www.` prefix) to `x.com`
or `twitter.com` and whose `<user>` matches `^[A-Za-z0-9_]{1,50}$`,
`parsePostInput` classifies the URL as an `id` carrying exactly `<digits>`,
and `parseUserInput` classifies it as a `username` carrying `<user>` with
its case preserved and no leading `@`. -/
theorem statusUrl_classification (host user digits : String)
    (hhost : normalizeHost host = "x.com" ∨ normalizeHost host = "twitter.com")
    (huser : isLikelyUsername user = true)
    (hd1 : digits.data ≠ []) (hd2 : ∀ c ∈ digits.data, c.isDigit = true) :
    parsePostInput ("https://" ++ host ++ "/" ++ user ++ "/status/" ++ digits) =
      .id digits ("https://" ++ host ++ "/" ++ user ++ "/status/" ++ digits) ∧
    parseUserInput ("https://" ++ host ++ "/" ++ user ++ "/status/" ++ digits) =
      .username user ("https://" ++ host ++ "/" ++ user ++ "/status/" ++ digits) := by
  have hmap : host.data.map jsCharLower = (jsToLower host).data := rfl
  have hL : (jsToLower host).data = "x.com".data ∨ (jsToLower host).data = "www.x.com".data ∨
      (jsToLower host).data = "twitter.com".data ∨
      (jsToLower host).data = "www.twitter.com".data := by
    rcases hhost with hh | hh <;> rcases normalizeHost_inv hh with h | h
    · left; rw [h]
    · right; left; rw [h]
    · right; right; left; rw [h]
    · right; right; right; rw [h]
  have hH1 : host.data ≠ [] := by
    intro h0
    have hnil : (jsToLower host).data = [] := by rw [← hmap, h0]; rfl
    rcases hL with h | h | h | h <;> rw [h] at hnil <;> exact absurd hnil (by decide)
  have hH2 : ∀ c ∈ host.data, c ≠ '/' ∧ c ≠ '?' ∧ c ≠ '#' ∧ c ≠ ':' ∧ c ≠ '@' := by
    intro c hc
    have hcl : jsCharLower c ∈ (jsToLower host).data := by
      rw [← hmap]
      exact List.mem_map_of_mem _ hc
    refine ⟨?_, ?_, ?_, ?_, ?_⟩ <;> rintro rfl <;>
      rcases hL with h | h | h | h <;> rw [h] at hcl <;> exact absurd hcl (by decide)
  have hH3 : host.data.headD ' ' ≠ 's' := by
    intro hs
    obtain ⟨hc, ht, heq⟩ := List.exists_cons_of_ne_nil hH1
    rw [heq] at hs
    simp only [List.headD_cons] at hs
    have hmem : jsCharLower hc ∈ (jsToLower host).data := by
      rw [← hmap, heq]
      exact List.mem_map_of_mem _ (List.mem_cons_self _ _)
    rw [hs] at hmem
    rcases hL with h | h | h | h <;> rw [h] at hmem <;> exact absurd hmem (by decide)
  have hnh : normalizeHost (jsToLower host) = "x.com" ∨
      normalizeHost (jsToLower host) = "twitter.com" := by
    rcases hL with h | h | h | h
    · left; rw [string_ext (t := "x.com") h]; decide
    · left; rw [string_ext (t := "www.x.com") h]; decide
    · right; rw [string_ext (t := "twitter.com") h]; decide
    · right; rw [string_ext (t := "www.twitter.com") h]; decide
  have hurl : ("https://" ++ host ++ "/" ++ user ++ "/status/" ++ digits).data =
      "https://".data ++ (host.data ++ ('/' :: (user.data ++ ("/status/".data ++ digits.data)))) := by
    simp [List.append_assoc]
  have hprob : isProbablyUrl ("https://" ++ host ++ "/" ++ user ++ "/status/" ++ digits) = true := by
    unfold isProbablyUrl
    have h2 : "https://".data.isPrefixOf
        ("https://" ++ host ++ "/" ++ user ++ "/status/" ++ digits).data = true := by
      rw [hurl]
      exact List.isPrefixOf_iff_prefix.mpr ⟨_, rfl⟩
    simp [h2]
  have hparse := parseUrlM_status host user digits hH1 hH2 huser hd2
  have hpost := extractPostId_status host user digits hH1 hH2 hH3 huser hd1 hd2
  have hxuser := extractUser_status user digits huser hd1 hd2
  constructor
  · unfold parsePostInput
    rw [if_pos hprob, hparse]
    simp only
    rw [if_neg (by rcases hnh with h | h <;> rw [h] <;> simp)]
    rw [hpost]
  · unfold parseUserInput
    rw [if_pos hprob, hparse]
    simp only
    rw [if_neg (by rcases hnh with h | h <;> rw [h] <;> simp)]
    rw [hxuser]

set_option maxRecDepth 4000 in
/-- Witness for C6 at the spec's example URL (with a case-varied `www` host
for the second instance). -/
theorem statusUrl_classification_witness :
    parsePostInput ("https://" ++ "x.com" ++ "/" ++ "XDevelopers" ++ "/status/" ++
        "1228393702244134912") =
      .id "1228393702244134912" ("https://" ++ "x.com" ++ "/" ++ "XDevelopers" ++
        "/status/" ++ "1228393702244134912") ∧
    parseUserInput ("https://" ++ "WWW.Twitter.COM" ++ "/" ++ "Some_User" ++ "/status/" ++ "42") =
      .username "Some_User" ("https://" ++ "WWW.Twitter.COM" ++ "/" ++ "Some_User" ++
        "/status/" ++ "42") := by
  exact ⟨(statusUrl_classification "x.com" "XDevelopers" "1228393702244134912"
      (Or.inl (by decide)) (by decide) (by decide) (by decide)).1,
    (statusUrl_classification "WWW.Twitter.COM" "Some_User" "42"
      (Or.inr (by decide)) (by decide) (by decide) (by decide)).2⟩

end XCli
